import Mathlib

/-!
# uarch_stressor.c : bubble sort, merge sort, quick sort and the array copier

Shallow embedding of `src/uarch_stressor.c`.

* An `int *` argument is a `Mem α`: the cells of the block it points to, together with the
  log of every index that was read or written through it.  Indexing is checked: an access
  at an index outside `[0, length)` makes the whole computation `none`.
* The element type is a parameter `α` ordered through `key : α → Int`; the C program is the
  instance `α = Int`, `key = id`.  Elements are only moved and compared, never computed
  with, so their width plays no role.
* Index variables are C `int`s.  The functions named as in the source compute on
  mathematical integers (`Int`); the division in the midpoint of `merge_sort` is C's
  truncating division, `Int.tdiv`.
* `bubble_sort`, `partition` and `quick_sort` also have a 32-bit embedding (`bubble_sort32`,
  `partition32`, `quick_sort32`): the same statements, with every `+` and `-` on an `int`
  reduced to 32 bits two's complement (`add32`, `sub32`).  The two embeddings agree whenever
  the arguments keep every index in the `int` range (`bubble_sort32_eq`, `partition32_eq`,
  `quick_sort32_eq`); they differ at `n = INT_MIN` (the loop bound `n - 1` wraps) and at
  `pi = INT_MAX` (the recursion bound `pi + 1` wraps, `quick_sort32_fuel_overflow`).
  Statements with arbitrary `int` arguments are over the 32-bit embedding.  In `merge`,
  `merge_sort` and `copy_array` no operation leaves the `int` range on a call with
  `0 ≤ l ≤ r < len ≤ INT_MAX`.
* `for` and `while` loops are recursive functions on a fuel counter that test the loop
  condition of the source at every iteration; running out of fuel is `none`.
  The recursive functions `merge_sort` and `quick_sort` carry a fuel counter for the
  recursion depth.
* `malloc` always succeeds and returns a block of uninitialised cells (`Buf α`); reading
  an uninitialised cell or indexing outside the block is `none`.
* `main` is modelled without the clock samples and the printing; the values of `rand()` are
  a sequence `rand : Nat → Int`, and the contents of a fresh `malloc` block in `main` are
  an arbitrary sequence.  `main` returns the states `(original, arr)` at the call and at the
  return of each sort.
* The statements about the C program are over arrays given as `pre ++ seg ++ post`, where
  `seg` is the range the call works on; `slice a l r` is the subrange `a[l..r]`.
-/

namespace UarchStressor

variable {α : Type}

/-! ## Memory model -/

/-- Block of memory behind an `int *`: its cells and the log of accessed indices
(most recent first). -/
structure Mem (α : Type) where
  cells : List α
  log : List Int
deriving DecidableEq

/-- Rvalue `arr[i]`: bounds checked, logged. -/
def Mem.read (m : Mem α) (i : Int) : Option (α × Mem α) :=
  if 0 ≤ i then
    match m.cells[i.toNat]? with
    | some v => some (v, ⟨m.cells, i :: m.log⟩)
    | none => none
  else none

/-- Assignment `arr[i] = v`: bounds checked, logged. -/
def Mem.write (m : Mem α) (i : Int) (v : α) : Option (Mem α) :=
  if 0 ≤ i ∧ i.toNat < m.cells.length then
    some ⟨m.cells.set i.toNat v, i :: m.log⟩
  else none

/-- Block returned by `malloc`: a cell is `none` until it is first written. -/
structure Buf (α : Type) where
  cells : List (Option α)
deriving DecidableEq

/-- Call `malloc(n * sizeof(int))`. -/
def malloc (n : Int) : Buf α := ⟨List.replicate n.toNat none⟩

/-- Rvalue `L[i]` for a temporary: bounds checked, fails on an uninitialised cell. -/
def Buf.read (b : Buf α) (i : Int) : Option α :=
  if 0 ≤ i then
    match b.cells[i.toNat]? with
    | some (some v) => some v
    | _ => none
  else none

/-- Assignment `L[i] = v` for a temporary: bounds checked. -/
def Buf.write (b : Buf α) (i : Int) (v : α) : Option (Buf α) :=
  if 0 ≤ i ∧ i.toNat < b.cells.length then
    some ⟨b.cells.set i.toNat (some v)⟩
  else none

/-! ## copy_array -/

/-- Loop `for (int i = 0; i < n; i++) dst[i] = src[i];` entered at `i`. -/
def copy_array_loop (n : Int) : Nat → Int → Mem α → Mem α → Option (Mem α × Mem α)
  | 0, i, src, dst => if i < n then none else some (src, dst)
  | fuel + 1, i, src, dst =>
    if i < n then do
      let (v, src) ← src.read i
      let dst ← dst.write i v
      copy_array_loop n fuel (i + 1) src dst
    else some (src, dst)

/-- Function `copy_array(src, dst, n)`; returns the source and the destination blocks. -/
def copy_array (src dst : Mem α) (n : Int) : Option (Mem α × Mem α) :=
  copy_array_loop n n.toNat 0 src dst

/-! ## bubble_sort -/

/-- Body of the inner loop:
`if (arr[j] > arr[j + 1]) { tmp = arr[j]; arr[j] = arr[j + 1]; arr[j + 1] = tmp; }`. -/
def bubble_step (key : α → Int) (j : Int) (m : Mem α) : Option (Mem α) := do
  let (x, m) ← m.read j
  let (y, m) ← m.read (j + 1)
  if key x > key y then do
    let (tmp, m) ← m.read j
    let (v, m) ← m.read (j + 1)
    let m ← m.write j v
    m.write (j + 1) tmp
  else some m

/-- Inner loop `for (int j = 0; j < n - i - 1; j++) ...` entered at `j`; `n - i - 1` on
mathematical integers (`bubble_inner32` is the 32-bit version). -/
def bubble_inner (key : α → Int) (n i : Int) : Nat → Int → Mem α → Option (Mem α)
  | 0, j, m => if j < n - i - 1 then none else some m
  | fuel + 1, j, m =>
    if j < n - i - 1 then do
      let m ← bubble_step key j m
      bubble_inner key n i fuel (j + 1) m
    else some m

/-- One outer pass: the body of the outer loop for a given `i`. -/
def bubble_pass (key : α → Int) (n i : Int) (m : Mem α) : Option (Mem α) :=
  bubble_inner key n i (n - i - 1).toNat 0 m

/-- Outer loop `for (int i = 0; i < n - 1; i++) ...` entered at `i`; `n - 1` on
mathematical integers (`bubble_outer32` is the 32-bit version). -/
def bubble_outer (key : α → Int) (n : Int) : Nat → Int → Mem α → Option (Mem α)
  | 0, i, m => if i < n - 1 then none else some m
  | fuel + 1, i, m =>
    if i < n - 1 then do
      let m ← bubble_pass key n i m
      bubble_outer key n fuel (i + 1) m
    else some m

/-- Function `bubble_sort(arr, n)`. -/
def bubble_sort (key : α → Int) (m : Mem α) (n : Int) : Option (Mem α) :=
  bubble_outer key n (n - 1).toNat 0 m

/-! ## merge and merge_sort -/

/-- Loops `for (int i = 0; i < cnt; i++) T[i] = arr[base + i];` entered at `i`
(`base = l`, `cnt = n1` for `L`; `base = m + 1`, `cnt = n2` for `R`). -/
def merge_fill (base cnt : Int) : Nat → Int → Mem α → Buf α → Option (Mem α × Buf α)
  | 0, i, m, T => if i < cnt then none else some (m, T)
  | fuel + 1, i, m, T =>
    if i < cnt then do
      let (v, m) ← m.read (base + i)
      let T ← T.write i v
      merge_fill base cnt fuel (i + 1) m T
    else some (m, T)

/-- Loop `while (i < n1 && j < n2) arr[k++] = (L[i] <= R[j]) ? L[i++] : R[j++];`. -/
def merge_main (key : α → Int) (L R : Buf α) (n1 n2 : Int) :
    Nat → Int → Int → Int → Mem α → Option (Int × Int × Int × Mem α)
  | 0, i, j, k, m => if i < n1 ∧ j < n2 then none else some (i, j, k, m)
  | fuel + 1, i, j, k, m =>
    if i < n1 ∧ j < n2 then do
      let x ← L.read i
      let y ← R.read j
      if key x ≤ key y then do
        let v ← L.read i
        let m ← m.write k v
        merge_main key L R n1 n2 fuel (i + 1) j (k + 1) m
      else do
        let v ← R.read j
        let m ← m.write k v
        merge_main key L R n1 n2 fuel i (j + 1) (k + 1) m
    else some (i, j, k, m)

/-- Loops `while (i < cnt) arr[k++] = T[i++];` (`T = L`, `cnt = n1` and `T = R`, `cnt = n2`). -/
def merge_drain (T : Buf α) (cnt : Int) : Nat → Int → Int → Mem α → Option (Int × Int × Mem α)
  | 0, i, k, m => if i < cnt then none else some (i, k, m)
  | fuel + 1, i, k, m =>
    if i < cnt then do
      let v ← T.read i
      let m ← m.write k v
      merge_drain T cnt fuel (i + 1) (k + 1) m
    else some (i, k, m)

/-- Function `merge(arr, l, m, r)` (the midpoint is called `mid` here). -/
def merge (key : α → Int) (m : Mem α) (l mid r : Int) : Option (Mem α) := do
  let n1 := mid - l + 1
  let n2 := r - mid
  let L : Buf α := malloc n1
  let R : Buf α := malloc n2
  let (m, L) ← merge_fill l n1 n1.toNat 0 m L
  let (m, R) ← merge_fill (mid + 1) n2 n2.toNat 0 m R
  let (i, j, k, m) ← merge_main key L R n1 n2 (n1 + n2).toNat 0 0 l m
  let (_, k, m) ← merge_drain L n1 n1.toNat i k m
  let (_, _, m) ← merge_drain R n2 n2.toNat j k m
  some m

/-- Function `merge_sort(arr, l, r)` with a bound on the recursion depth. -/
def merge_sort_fuel (key : α → Int) : Nat → Mem α → Int → Int → Option (Mem α)
  | 0, m, l, r => if l < r then none else some m
  | fuel + 1, m, l, r =>
    if l < r then do
      let mid := l + Int.tdiv (r - l) 2
      let m ← merge_sort_fuel key fuel m l mid
      let m ← merge_sort_fuel key fuel m (mid + 1) r
      merge key m l mid r
    else some m

/-- Function `merge_sort(arr, l, r)`. -/
def merge_sort (key : α → Int) (m : Mem α) (l r : Int) : Option (Mem α) :=
  merge_sort_fuel key (r - l).toNat m l r

/-! ## partition and quick_sort -/

/-- Loop `for (int j = low; j < high; j++) if (arr[j] < pivot) { i++; swap arr[i], arr[j] }`
entered at `j`; returns the final `i`. -/
def partition_loop (key : α → Int) (pivot : α) (high : Int) :
    Nat → Int → Int → Mem α → Option (Int × Mem α)
  | 0, i, j, m => if j < high then none else some (i, m)
  | fuel + 1, i, j, m =>
    if j < high then do
      let (x, m) ← m.read j
      if key x < key pivot then do
        let i := i + 1
        let (tmp, m) ← m.read i
        let (v, m) ← m.read j
        let m ← m.write i v
        let m ← m.write j tmp
        partition_loop key pivot high fuel i (j + 1) m
      else partition_loop key pivot high fuel i (j + 1) m
    else some (i, m)

/-- Function `partition(arr, low, high)`; returns the pivot index and the array. -/
def partition (key : α → Int) (m : Mem α) (low high : Int) : Option (Int × Mem α) := do
  let (pivot, m) ← m.read high
  let i := low - 1
  let (i, m) ← partition_loop key pivot high (high - low).toNat i low m
  let (tmp, m) ← m.read (i + 1)
  let (v, m) ← m.read high
  let m ← m.write (i + 1) v
  let m ← m.write high tmp
  some (i + 1, m)

/-- Function `quick_sort(arr, low, high)` with a bound on the recursion depth; `pi - 1` and
`pi + 1` on mathematical integers (`quick_sort32_fuel` is the 32-bit version). -/
def quick_sort_fuel (key : α → Int) : Nat → Mem α → Int → Int → Option (Mem α)
  | 0, m, low, high => if low < high then none else some m
  | fuel + 1, m, low, high =>
    if low < high then do
      let (pi, m) ← partition key m low high
      let m ← quick_sort_fuel key fuel m low (pi - 1)
      quick_sort_fuel key fuel m (pi + 1) high
    else some m

/-- Function `quick_sort(arr, low, high)`. -/
def quick_sort (key : α → Int) (m : Mem α) (low high : Int) : Option (Mem α) :=
  quick_sort_fuel key (high - low).toNat m low high

/-! ## main -/

/-- Compile-time constant `N`: the length of the benchmark arrays. -/
def N : Int := 100

/-- Block returned by `malloc(n * sizeof(int))` in `main`, seen as an `int` array: `n`
cells with indeterminate contents `junk 0, junk 1, ...`, an empty access log. -/
def alloc_ints (n : Int) (junk : Nat → Int) : Mem Int :=
  ⟨(List.range n.toNat).map junk, []⟩

/-- Loop `for (int i = 0; i < n; i++) original[i] = rand();` entered at `i`, where `calls`
counts the calls of `rand()` made so far and `rand k` is the value returned by call `k`.
Returns the call count and the array. -/
def generate_loop (rand : Nat → Int) (n : Int) :
    Nat → Int → Nat → Mem Int → Option (Nat × Mem Int)
  | 0, i, calls, original => if i < n then none else some (calls, original)
  | fuel + 1, i, calls, original =>
    if i < n then do
      let original ← original.write i (rand calls)
      generate_loop rand n fuel (i + 1) (calls + 1) original
    else some (calls, original)

/-- States `(original, arr)` of `main` at the call of each sort and at its return. -/
structure MainTrace where
  bubble_start : Mem Int × Mem Int
  bubble_end : Mem Int × Mem Int
  merge_start : Mem Int × Mem Int
  merge_end : Mem Int × Mem Int
  quick_start : Mem Int × Mem Int
  quick_end : Mem Int × Mem Int

/-- Function `main` for an array length `n`, without the clock samples and the printing:
allocate, generate, then copy and sort three times.  `rand` is the sequence of values of
`rand()`; `junk1` and `junk2` are the indeterminate contents of the two fresh blocks. -/
def main_run (n : Int) (rand junk1 junk2 : Nat → Int) : Option MainTrace := do
  let original := alloc_ints n junk1
  let arr := alloc_ints n junk2
  let (_, original) ← generate_loop rand n n.toNat 0 0 original
  let (original, arr) ← copy_array original arr n
  let s1 := (original, arr)
  let arr ← bubble_sort id arr n
  let e1 := (original, arr)
  let (original, arr) ← copy_array original arr n
  let s2 := (original, arr)
  let arr ← merge_sort id arr 0 (n - 1)
  let e2 := (original, arr)
  let (original, arr) ← copy_array original arr n
  let s3 := (original, arr)
  let arr ← quick_sort id arr 0 (n - 1)
  let e3 := (original, arr)
  some ⟨s1, e1, s2, e2, s3, e3⟩

/-- Function `main` of the program: `main_run` at the constant `N`. -/
def main (rand junk1 junk2 : Nat → Int) : Option MainTrace := main_run N rand junk1 junk2

/-! ## Specification vocabulary -/

/-- The log `lg'` extends `lg` by indices that all lie in `[lo, hi]`. -/
def LogExt (lo hi : Int) (lg lg' : List Int) : Prop :=
  ∃ ext, lg' = ext ++ lg ∧ ∀ i ∈ ext, lo ≤ i ∧ i ≤ hi

/-- Sorted in non-decreasing order of the key. -/
def SortedBy (key : α → Int) (l : List α) : Prop := l.Pairwise (fun a b => key a ≤ key b)

instance SortedBy.decidable (key : α → Int) (l : List α) : Decidable (SortedBy key l) :=
  inferInstanceAs (Decidable (l.Pairwise (fun a b => key a ≤ key b)))

/-- Records of `l` whose key is `k`, in their order of appearance in `l`.  Two arrays agree
on `withKey key k` for every `k` exactly when records with equal keys appear in the same
relative order in both. -/
def withKey (key : α → Int) (k : Int) (l : List α) : List α := l.filter (fun a => key a = k)

/-- Cells `j .. j + |ys|` after the inner loop of `bubble_sort` has swept them, when they
held `x :: ys` before: the carried element is swapped forward while it is greater. -/
def bubbleUp (key : α → Int) : α → List α → List α
  | x, [] => [x]
  | x, y :: ys => if key x > key y then y :: bubbleUp key x ys else x :: bubbleUp key y ys

/-- Cells written by `merge` for the left half `xs` and the right half `ys`: the smaller head
first, the left one on a tie, then the rest of the half that is not exhausted. -/
def mergeBy (key : α → Int) : List α → List α → List α
  | [], ys => ys
  | x :: xs, [] => x :: xs
  | x :: xs, y :: ys =>
    if key x ≤ key y then x :: mergeBy key xs (y :: ys) else y :: mergeBy key (x :: xs) ys

/-- Subrange `arr[l..r]`, both ends included (empty when `r < l`). -/
def slice (a : List α) (l r : Int) : List α := (a.drop l.toNat).take (r + 1 - l).toNat

/-- State after the first `i` outer passes of `bubble_sort(arr, n)`: the body of the outer
loop run for the loop variable `0, ..., i - 1`. -/
def bubble_passes (key : α → Int) (n : Int) (i : Nat) (m : Mem α) : Option (Mem α) :=
  (List.range i).foldlM (fun m (t : Nat) => bubble_pass key n t m) m

/-- Smallest value of a C `int` (32 bits, two's complement). -/
def INT_MIN : Int := -2147483648

/-- Largest value of a C `int` (32 bits, two's complement). -/
def INT_MAX : Int := 2147483647

/-- The mathematical value `x` is representable in a C `int`: computing it does not
overflow. -/
def inInt (x : Int) : Prop := INT_MIN ≤ x ∧ x ≤ INT_MAX

instance inInt.decidable (x : Int) : Decidable (inInt x) :=
  inferInstanceAs (Decidable (INT_MIN ≤ x ∧ x ≤ INT_MAX))

/-- Reduction of a mathematical result to 32 bits, two's complement. -/
def wrap32 (x : Int) : Int := (x + 2147483648) % 4294967296 - 2147483648

/-- Midpoint expression `l + (r - l) / 2` of `merge_sort`, on mathematical integers. -/
def midpoint (l r : Int) : Int := l + Int.tdiv (r - l) 2

/-- Midpoint expression `l + (r - l) / 2` on a 32-bit machine: every intermediate result
is reduced to 32 bits. -/
def midpoint32 (l r : Int) : Int := wrap32 (l + wrap32 (Int.tdiv (wrap32 (r - l)) 2))

/-- Size `n1 = m - l + 1` of the temporary `L` in `merge`. -/
def merge_n1 (l mid : Int) : Int := mid - l + 1

/-- Size `n2 = r - m` of the temporary `R` in `merge`. -/
def merge_n2 (mid r : Int) : Int := r - mid

/-! ## 32-bit index arithmetic for bubble_sort and quick_sort -/

/-- Sum `a + b` of two `int`s, reduced to 32 bits. -/
def add32 (a b : Int) : Int := wrap32 (a + b)

/-- Difference `a - b` of two `int`s, reduced to 32 bits. -/
def sub32 (a b : Int) : Int := wrap32 (a - b)

/-- Body of the inner loop of `bubble_sort`, 32-bit `j + 1`. -/
def bubble_step32 (key : α → Int) (j : Int) (m : Mem α) : Option (Mem α) := do
  let (x, m) ← m.read j
  let (y, m) ← m.read (add32 j 1)
  if key x > key y then do
    let (tmp, m) ← m.read j
    let (v, m) ← m.read (add32 j 1)
    let m ← m.write j v
    m.write (add32 j 1) tmp
  else some m

/-- Inner loop `for (int j = 0; j < n - i - 1; j++) ...` entered at `j`, 32-bit `int`s. -/
def bubble_inner32 (key : α → Int) (n i : Int) : Nat → Int → Mem α → Option (Mem α)
  | 0, j, m => if j < sub32 (sub32 n i) 1 then none else some m
  | fuel + 1, j, m =>
    if j < sub32 (sub32 n i) 1 then do
      let m ← bubble_step32 key j m
      bubble_inner32 key n i fuel (add32 j 1) m
    else some m

/-- One outer pass of `bubble_sort` for a given `i`, 32-bit `int`s. -/
def bubble_pass32 (key : α → Int) (n i : Int) (m : Mem α) : Option (Mem α) :=
  bubble_inner32 key n i (sub32 (sub32 n i) 1).toNat 0 m

/-- Outer loop `for (int i = 0; i < n - 1; i++) ...` entered at `i`, 32-bit `int`s. -/
def bubble_outer32 (key : α → Int) (n : Int) : Nat → Int → Mem α → Option (Mem α)
  | 0, i, m => if i < sub32 n 1 then none else some m
  | fuel + 1, i, m =>
    if i < sub32 n 1 then do
      let m ← bubble_pass32 key n i m
      bubble_outer32 key n fuel (add32 i 1) m
    else some m

/-- Function `bubble_sort(arr, n)` with 32-bit `int` arithmetic. -/
def bubble_sort32 (key : α → Int) (m : Mem α) (n : Int) : Option (Mem α) :=
  bubble_outer32 key n (sub32 n 1).toNat 0 m

/-- Loop of `partition` entered at `j`, 32-bit `i++` and `j++`; returns the final `i`. -/
def partition_loop32 (key : α → Int) (pivot : α) (high : Int) :
    Nat → Int → Int → Mem α → Option (Int × Mem α)
  | 0, i, j, m => if j < high then none else some (i, m)
  | fuel + 1, i, j, m =>
    if j < high then do
      let (x, m) ← m.read j
      if key x < key pivot then do
        let i := add32 i 1
        let (tmp, m) ← m.read i
        let (v, m) ← m.read j
        let m ← m.write i v
        let m ← m.write j tmp
        partition_loop32 key pivot high fuel i (add32 j 1) m
      else partition_loop32 key pivot high fuel i (add32 j 1) m
    else some (i, m)

/-- Function `partition(arr, low, high)` with 32-bit `int` arithmetic. -/
def partition32 (key : α → Int) (m : Mem α) (low high : Int) : Option (Int × Mem α) := do
  let (pivot, m) ← m.read high
  let i := sub32 low 1
  let (i, m) ← partition_loop32 key pivot high (high - low).toNat i low m
  let (tmp, m) ← m.read (add32 i 1)
  let (v, m) ← m.read high
  let m ← m.write (add32 i 1) v
  let m ← m.write high tmp
  some (add32 i 1, m)

/-- Function `quick_sort(arr, low, high)` with 32-bit `int` arithmetic and a bound on the
recursion depth: the recursive calls are on `(low, pi - 1)` and `(pi + 1, high)` with
`pi - 1` and `pi + 1` reduced to 32 bits. -/
def quick_sort32_fuel (key : α → Int) : Nat → Mem α → Int → Int → Option (Mem α)
  | 0, m, low, high => if low < high then none else some m
  | fuel + 1, m, low, high =>
    if low < high then do
      let (pi, m) ← partition32 key m low high
      let m ← quick_sort32_fuel key fuel m low (sub32 pi 1)
      quick_sort32_fuel key fuel m (add32 pi 1) high
    else some m

/-- Function `quick_sort(arr, low, high)` with 32-bit `int` arithmetic. -/
def quick_sort32 (key : α → Int) (m : Mem α) (low high : Int) : Option (Mem α) :=
  quick_sort32_fuel key (high - low).toNat m low high

/-! ## Lemmas -/

theorem LogExt.refl (lo hi : Int) (lg : List Int) : LogExt lo hi lg lg :=
  ⟨[], rfl, by simp⟩

theorem LogExt.cons {lo hi : Int} {lg lg' : List Int} (i : Int) (h : LogExt lo hi lg lg')
    (h1 : lo ≤ i) (h2 : i ≤ hi) : LogExt lo hi lg (i :: lg') := by
  obtain ⟨ext, rfl, he⟩ := h
  refine ⟨i :: ext, rfl, ?_⟩
  intro k hk
  rcases List.mem_cons.1 hk with rfl | hk
  · exact ⟨h1, h2⟩
  · exact he k hk

theorem LogExt.trans {lo hi : Int} {a b c : List Int} (h1 : LogExt lo hi a b)
    (h2 : LogExt lo hi b c) : LogExt lo hi a c := by
  obtain ⟨e1, rfl, he1⟩ := h1
  obtain ⟨e2, rfl, he2⟩ := h2
  refine ⟨e2 ++ e1, by simp, ?_⟩
  intro k hk
  rcases List.mem_append.1 hk with hk | hk
  · exact he2 k hk
  · exact he1 k hk

theorem LogExt.mono {lo hi lo' hi' : Int} {a b : List Int} (h : LogExt lo hi a b)
    (h1 : lo' ≤ lo) (h2 : hi ≤ hi') : LogExt lo' hi' a b := by
  obtain ⟨e, rfl, he⟩ := h
  exact ⟨e, rfl, fun k hk => ⟨le_trans h1 (he k hk).1, le_trans (he k hk).2 h2⟩⟩

theorem read_at {c p q : List α} {x : α} (lg : List Int) {i : Int}
    (hc : c = p ++ x :: q) (hi : i = p.length) :
    Mem.read ⟨c, lg⟩ i = some (x, ⟨c, i :: lg⟩) := by
  subst hc hi
  have h : (p ++ x :: q)[p.length]? = some x := by
    rw [List.getElem?_append_right (Nat.le_refl _)]; simp
  simp [Mem.read, h]

theorem write_at {c p q : List α} {x : α} (lg : List Int) {i : Int} (v : α)
    (hc : c = p ++ x :: q) (hi : i = p.length) :
    Mem.write ⟨c, lg⟩ i v = some ⟨p ++ v :: q, i :: lg⟩ := by
  subst hc hi
  simp [Mem.write]

theorem bubbleUp_length (key : α → Int) (x : α) (ys : List α) :
    (bubbleUp key x ys).length = ys.length + 1 := by
  induction ys generalizing x with
  | nil => rfl
  | cons y ys ih =>
    unfold bubbleUp
    split <;> simp [ih]

theorem bubbleUp_perm (key : α → Int) (x : α) (ys : List α) :
    (bubbleUp key x ys).Perm (x :: ys) := by
  induction ys generalizing x with
  | nil => exact List.Perm.refl _
  | cons y ys ih =>
    unfold bubbleUp
    split
    · exact ((ih x).cons y).trans (List.Perm.swap x y ys)
    · exact (ih y).cons x

theorem bubbleUp_withKey (key : α → Int) (k : Int) (x : α) (ys : List α) :
    withKey key k (bubbleUp key x ys) = withKey key k (x :: ys) := by
  induction ys generalizing x with
  | nil => rfl
  | cons y ys ih =>
    unfold bubbleUp
    split
    · next h =>
      have := ih x
      simp only [withKey, List.filter_cons] at this ⊢
      rw [this]
      by_cases hx : key x = k <;> by_cases hy : key y = k <;> simp [hx, hy]
      omega
    · have := ih y
      simp only [withKey, List.filter_cons] at this ⊢
      rw [this]

theorem bubbleUp_last (key : α → Int) (x : α) (ys : List α) :
    ∃ init mx, bubbleUp key x ys = init ++ [mx] ∧ (∀ a ∈ init, key a ≤ key mx) ∧
      key x ≤ key mx := by
  induction ys generalizing x with
  | nil => exact ⟨[], x, rfl, by simp, le_refl _⟩
  | cons y ys ih =>
    unfold bubbleUp
    split
    · next h =>
      obtain ⟨init, mx, e, h1, h2⟩ := ih x
      refine ⟨y :: init, mx, by simp [e], ?_, h2⟩
      intro a ha
      rcases List.mem_cons.1 ha with rfl | ha
      · omega
      · exact h1 a ha
    · next h =>
      obtain ⟨init, mx, e, h1, h2⟩ := ih y
      refine ⟨x :: init, mx, by simp [e], ?_, by omega⟩
      intro a ha
      rcases List.mem_cons.1 ha with rfl | ha
      · omega
      · exact h1 a ha

theorem bubble_step_at (key : α → Int) {c p q : List α} {x y : α} (lg : List Int) {j : Int}
    (hc : c = p ++ x :: y :: q) (hj : j = p.length) :
    ∃ lg', bubble_step key j ⟨c, lg⟩ =
        some ⟨p ++ (if key x > key y then y :: x :: q else x :: y :: q), lg'⟩ ∧
      LogExt j (j + 1) lg lg' := by
  have hc2 : c = (p ++ [x]) ++ y :: q := by simp [hc]
  have hj2 : j + 1 = ((p ++ [x]).length : Nat) := by simp [hj]
  unfold bubble_step
  rw [read_at lg hc hj]
  simp only [Option.bind_eq_bind, Option.some_bind]
  rw [read_at _ hc2 hj2]
  simp only [Option.some_bind]
  by_cases h : key x > key y
  · simp only [h, if_true]
    rw [read_at _ hc hj]
    simp only [Option.some_bind]
    rw [read_at _ hc2 hj2]
    simp only [Option.some_bind]
    rw [write_at _ y hc hj]
    simp only [Option.some_bind]
    have hc3 : p ++ y :: y :: q = (p ++ [y]) ++ y :: q := by simp
    have hj3 : j + 1 = ((p ++ [y]).length : Nat) := by simp [hj]
    rw [write_at _ x hc3 hj3]
    refine ⟨(j+1) :: j :: (j+1) :: j :: (j+1) :: j :: lg, by simp, ?_⟩
    refine ⟨[j+1, j, j+1, j, j+1, j], by simp, ?_⟩
    intro i hi
    simp at hi
    omega
  · simp only [h, if_false]
    refine ⟨(j+1) :: j :: lg, by simp [hc], ?_⟩
    refine ⟨[j+1, j], by simp, ?_⟩
    intro i hi
    simp at hi
    omega

theorem bubble_inner_at (key : α → Int) (n i : Int) (fuel : Nat) (ys : List α) :
    ∀ (p q : List α) (x : α) (lg : List Int) (j : Int), j = p.length →
      n - i - 1 = j + ys.length → ys.length ≤ fuel →
      ∃ lg', bubble_inner key n i fuel j ⟨p ++ x :: ys ++ q, lg⟩ =
          some ⟨p ++ bubbleUp key x ys ++ q, lg'⟩ ∧
        LogExt 0 (n - i - 1) lg lg' := by
  induction ys generalizing fuel with
  | nil =>
    intro p q x lg j hj hn _
    have hlt : ¬ j < n - i - 1 := by simp at hn; omega
    refine ⟨lg, ?_, LogExt.refl _ _ _⟩
    cases fuel <;> simp [bubble_inner, hlt, bubbleUp]
  | cons y ys ih =>
    intro p q x lg j hj hn hf
    simp only [List.length_cons, Nat.cast_add, Nat.cast_one] at hn
    have hlt : j < n - i - 1 := by omega
    cases fuel with
    | zero => simp at hf
    | succ fuel =>
      obtain ⟨lg1, h1, hl1⟩ := bubble_step_at key (c := p ++ x :: y :: ys ++ q) (p := p)
        (q := ys ++ q) (x := x) (y := y) lg (j := j) (by simp) hj
      simp only [bubble_inner, hlt, if_true, Option.bind_eq_bind, h1, Option.some_bind]
      have hl1 : LogExt 0 (n - i - 1) lg lg1 := hl1.mono (by omega) (by omega)
      by_cases h : key x > key y
      · obtain ⟨lg2, h2, hl2⟩ := ih fuel (p ++ [y]) q x lg1 (j + 1) (by simp [hj]) (by omega)
          (by simpa using hf)
        refine ⟨lg2, ?_, hl1.trans hl2⟩
        simp only [h, if_true] at h2 ⊢
        simp only [bubbleUp, h, if_true]
        simpa using h2
      · obtain ⟨lg2, h2, hl2⟩ := ih fuel (p ++ [x]) q y lg1 (j + 1) (by simp [hj]) (by omega)
          (by simpa using hf)
        refine ⟨lg2, ?_, hl1.trans hl2⟩
        simp only [h, if_false] at h2 ⊢
        simp only [bubbleUp, h, if_false]
        simpa using h2

theorem bubble_outer_at (key : α → Int) (n : Int) (fuel : Nat) :
    ∀ (seg fin post : List α) (lg : List Int) (i : Int), 0 ≤ i → (seg.length : Int) = n - i →
      (n - 1 - i).toNat ≤ fuel → SortedBy key fin →
      (∀ a ∈ seg, ∀ b ∈ fin, key a ≤ key b) →
      ∃ out lg', bubble_outer key n fuel i ⟨seg ++ fin ++ post, lg⟩ = some ⟨out ++ post, lg'⟩ ∧
        SortedBy key out ∧ out.Perm (seg ++ fin) ∧
        (∀ k, withKey key k out = withKey key k (seg ++ fin)) ∧
        LogExt 0 (n - 1) lg lg' := by
  induction fuel with
  | zero =>
    intro seg fin post lg i hi hlen hf hs hc
    have hlt : ¬ i < n - 1 := by omega
    refine ⟨seg ++ fin, lg, by simp [bubble_outer, hlt], ?_, List.Perm.refl _, fun _ => rfl,
      LogExt.refl _ _ _⟩
    have h1 : seg.length ≤ 1 := by omega
    refine List.pairwise_append.2 ⟨?_, hs, hc⟩
    match seg, h1 with
    | [], _ => exact List.Pairwise.nil
    | [a], _ => exact List.pairwise_singleton _ _
  | succ fuel ih =>
    intro seg fin post lg i hi hlen hf hs hc
    by_cases hlt : i < n - 1
    · match seg, hlen with
      | [], hlen => simp at hlen; omega
      | x :: ys, hlen =>
        simp only [List.length_cons, Nat.cast_add, Nat.cast_one] at hlen
        obtain ⟨lg1, h1, hl1⟩ := bubble_inner_at key n i (n - i - 1).toNat ys [] (fin ++ post) x lg 0
          rfl (by omega) (by omega)
        obtain ⟨init, mx, e, hmx, _⟩ := bubbleUp_last key x ys
        have hperm := bubbleUp_perm key x ys
        have hlen2 := bubbleUp_length key x ys
        rw [e] at hperm hlen2
        have hmem : ∀ a, a ∈ init ++ [mx] → a ∈ x :: ys := fun a ha => hperm.subset ha
        obtain ⟨out, lg2, h2, hso, hpo, hko, hl2⟩ := ih init (mx :: fin) post lg1 (i + 1)
          (by omega) (by simp at hlen2; omega) (by omega)
          (List.pairwise_cons.2 ⟨fun b hb => hc mx (hmem mx (by simp)) b hb, hs⟩)
          (by
            intro a ha b hb
            rcases List.mem_cons.1 hb with rfl | hb
            · exact hmx a ha
            · exact hc a (hmem a (by simp [ha])) b hb)
        refine ⟨out, lg2, ?_, hso, ?_, ?_, (hl1.mono (le_refl _) (by omega)).trans hl2⟩
        · simp only [bubble_outer, hlt, if_true, Option.bind_eq_bind, bubble_pass]
          simp only [List.nil_append, List.append_assoc, List.cons_append] at h1
          simp only [List.cons_append, List.append_assoc, h1, Option.some_bind]
          rw [e]
          simpa using h2
        · refine hpo.trans ?_
          have : init ++ mx :: fin = (init ++ [mx]) ++ fin := by simp
          rw [this]
          exact hperm.append_right fin
        · intro k
          rw [hko k]
          have : init ++ mx :: fin = (init ++ [mx]) ++ fin := by simp
          rw [this, ← e]
          have hk := bubbleUp_withKey key k x ys
          simp only [withKey, List.filter_append] at hk ⊢
          rw [hk]
    · refine ⟨seg ++ fin, lg, by simp [bubble_outer, hlt], ?_, List.Perm.refl _, fun _ => rfl,
        LogExt.refl _ _ _⟩
      have h1 : seg.length ≤ 1 := by omega
      refine List.pairwise_append.2 ⟨?_, hs, hc⟩
      match seg, h1 with
      | [], _ => exact List.Pairwise.nil
      | [a], _ => exact List.pairwise_singleton _ _

theorem bubble_sort_spec (key : α → Int) (a : List α) (lg : List Int) (n : Int)
    (hn : n ≤ a.length) :
    ∃ out lg', bubble_sort key ⟨a, lg⟩ n = some ⟨out ++ a.drop n.toNat, lg'⟩ ∧
      SortedBy key out ∧ out.Perm (a.take n.toNat) ∧
      (∀ k, withKey key k out = withKey key k (a.take n.toNat)) ∧
      LogExt 0 (n - 1) lg lg' := by
  by_cases h0 : 0 ≤ n
  · obtain ⟨out, lg1, h1, h2, h3, h4, h5⟩ := bubble_outer_at key n (n - 1).toNat
      (a.take n.toNat) [] (a.drop n.toNat) lg 0 (le_refl _)
      (by rw [List.length_take]; omega) (by omega) List.Pairwise.nil (by simp)
    refine ⟨out, lg1, ?_, h2, by simpa using h3, by simpa using h4, h5⟩
    simpa [bubble_sort] using h1
  · have hlt : ¬ (0 : Int) < n - 1 := by omega
    have ht : n.toNat = 0 := by omega
    refine ⟨[], lg, ?_, List.Pairwise.nil, by simp [ht], by simp [ht], LogExt.refl _ _ _⟩
    have hf : (n - 1).toNat = 0 := by omega
    simp [bubble_sort, hf, bubble_outer, hlt, ht]

theorem mergeBy_nil_right (key : α → Int) (xs : List α) : mergeBy key xs [] = xs := by
  cases xs <;> simp [mergeBy]

theorem mergeBy_perm (key : α → Int) (xs ys : List α) :
    (mergeBy key xs ys).Perm (xs ++ ys) := by
  induction xs generalizing ys with
  | nil => simp [mergeBy]
  | cons x xs ihx =>
    induction ys with
    | nil => simp [mergeBy]
    | cons y ys ihy =>
      rw [mergeBy]
      split
      · exact (ihx (y :: ys)).cons x
      · refine (ihy.cons y).trans ?_
        exact (@List.perm_middle _ y (x :: xs) ys).symm

theorem mergeBy_sorted (key : α → Int) (xs ys : List α) (hx : SortedBy key xs)
    (hy : SortedBy key ys) : SortedBy key (mergeBy key xs ys) := by
  induction xs generalizing ys with
  | nil => simpa [mergeBy] using hy
  | cons x xs ihx =>
    induction ys with
    | nil => simpa [mergeBy] using hx
    | cons y ys ihy =>
      rw [mergeBy]
      have hx1 := List.pairwise_cons.1 hx
      have hy1 := List.pairwise_cons.1 hy
      split
      · next h =>
        refine List.pairwise_cons.2 ⟨?_, ihx (y :: ys) hx1.2 hy⟩
        intro b hb
        rcases List.mem_append.1 ((mergeBy_perm key xs (y :: ys)).subset hb) with hb | hb
        · exact hx1.1 b hb
        · rcases List.mem_cons.1 hb with rfl | hb
          · exact h
          · exact le_trans h (hy1.1 b hb)
      · next h =>
        refine List.pairwise_cons.2 ⟨?_, ihy hy1.2⟩
        intro b hb
        rcases List.mem_append.1 ((mergeBy_perm key (x :: xs) ys).subset hb) with hb | hb
        · rcases List.mem_cons.1 hb with rfl | hb
          · omega
          · have := hx1.1 b hb
            omega
        · exact hy1.1 b hb

theorem withKey_eq_nil_of_lt (key : α → Int) (k : Int) (xs : List α)
    (h : ∀ a ∈ xs, k < key a) : withKey key k xs = [] := by
  unfold withKey
  rw [List.filter_eq_nil_iff]
  intro a ha
  have := h a ha
  simp
  omega

theorem withKey_append (key : α → Int) (k : Int) (xs ys : List α) :
    withKey key k (xs ++ ys) = withKey key k xs ++ withKey key k ys := by
  simp [withKey]

theorem mergeBy_withKey (key : α → Int) (k : Int) (xs ys : List α) (hx : SortedBy key xs) :
    withKey key k (mergeBy key xs ys) = withKey key k xs ++ withKey key k ys := by
  induction xs generalizing ys with
  | nil => simp [mergeBy, withKey]
  | cons x xs ihx =>
    induction ys with
    | nil => simp [mergeBy, withKey]
    | cons y ys ihy =>
      rw [mergeBy]
      have hx1 := List.pairwise_cons.1 hx
      split
      · have := ihx (y :: ys) hx1.2
        simp only [withKey, List.filter_cons] at this ⊢
        rw [this]
        split <;> simp
      · next h =>
        have e : withKey key k (y :: mergeBy key (x :: xs) ys) =
            withKey key k [y] ++ withKey key k (mergeBy key (x :: xs) ys) :=
          withKey_append key k [y] _
        have e2 : withKey key k (y :: ys) = withKey key k [y] ++ withKey key k ys :=
          withKey_append key k [y] _
        rw [e, ihy, e2]
        by_cases hk : key y = k
        · have hnil : withKey key k (x :: xs) = [] := by
            apply withKey_eq_nil_of_lt
            intro a ha
            rcases List.mem_cons.1 ha with rfl | ha
            · omega
            · have := hx1.1 a ha
              omega
          simp [hnil]
        · simp [withKey, hk]

theorem buf_read_at {c u v : List (Option α)} {x : α} {i : Int}
    (hc : c = u ++ some x :: v) (hi : i = u.length) : Buf.read ⟨c⟩ i = some x := by
  subst hc hi
  have h : (u ++ some x :: v)[u.length]? = some (some x) := by
    rw [List.getElem?_append_right (Nat.le_refl _)]; simp
  simp [Buf.read, h]

theorem buf_write_at {c u v : List (Option α)} {o : Option α} {i : Int} (x : α)
    (hc : c = u ++ o :: v) (hi : i = u.length) :
    Buf.write ⟨c⟩ i x = some ⟨u ++ some x :: v⟩ := by
  subst hc hi
  simp [Buf.write]

theorem merge_fill_at (base cnt : Int) (rest : List α) :
    ∀ (fuel : Nat) (pre dn post : List α) (lg : List Int) (i : Int), base = pre.length →
      i = dn.length → cnt = dn.length + rest.length → rest.length ≤ fuel →
      ∃ lg', merge_fill base cnt fuel i ⟨pre ++ dn ++ rest ++ post, lg⟩
            ⟨dn.map some ++ List.replicate rest.length none⟩ =
          some (⟨pre ++ dn ++ rest ++ post, lg'⟩, ⟨(dn ++ rest).map some⟩) ∧
        LogExt base (base + cnt - 1) lg lg' := by
  induction rest with
  | nil =>
    intro fuel pre dn post lg i _ hi hc _
    have hlt : ¬ i < cnt := by simp at hc; omega
    refine ⟨lg, ?_, LogExt.refl _ _ _⟩
    cases fuel <;> simp [merge_fill, hlt]
  | cons x rest ih =>
    intro fuel pre dn post lg i hb hi hc hf
    simp only [List.length_cons, Nat.cast_add, Nat.cast_one] at hc
    have hlt : i < cnt := by omega
    cases fuel with
    | zero => simp at hf
    | succ fuel =>
      have hr := read_at (c := pre ++ dn ++ x :: rest ++ post) (p := pre ++ dn)
        (q := rest ++ post) (x := x) lg (i := base + i) (by simp) (by simp [hb, hi])
      have hw := buf_write_at (c := dn.map some ++ List.replicate (x :: rest).length none)
        (u := dn.map some) (v := List.replicate rest.length none) (o := none) (i := i) x
        (by simp [List.replicate_succ]) (by simp [hi])
      obtain ⟨lg2, h2, hl2⟩ := ih fuel pre (dn ++ [x]) post ((base + i) :: lg) (i + 1) hb
        (by simp [hi]) (by simp; omega) (by simpa using hf)
      refine ⟨lg2, ?_, ((LogExt.refl _ _ _).cons (base + i) (by omega) (by omega)).trans hl2⟩
      simp only [merge_fill, hlt, if_true, Option.bind_eq_bind, hr, Option.some_bind, hw]
      simpa using h2

theorem merge_drain_at (cnt : Int) (As : List α) :
    ∀ (fuel : Nat) (A0 pre junk rest : List α) (lg : List Int) (i k : Int), i = A0.length →
      k = pre.length → cnt = A0.length + As.length → junk.length = As.length →
      As.length ≤ fuel →
      ∃ lg' i', merge_drain ⟨(A0 ++ As).map some⟩ cnt fuel i k ⟨pre ++ junk ++ rest, lg⟩ =
          some (i', k + As.length, ⟨pre ++ As ++ rest, lg'⟩) ∧
        LogExt k (k + As.length - 1) lg lg' := by
  induction As with
  | nil =>
    intro fuel A0 pre junk rest lg i k hi _ hc hj _
    have hlt : ¬ i < cnt := by simp at hc; omega
    have hj0 : junk = [] := List.length_eq_zero.1 (by simpa using hj)
    subst hj0
    refine ⟨lg, i, ?_, LogExt.refl _ _ _⟩
    cases fuel <;> simp [merge_drain, hlt]
  | cons x As ih =>
    intro fuel A0 pre junk rest lg i k hi hk hc hj hf
    simp only [List.length_cons, Nat.cast_add, Nat.cast_one] at hc
    have hlt : i < cnt := by omega
    cases fuel with
    | zero => simp at hf
    | succ fuel =>
      match junk, hj with
      | [], hj => simp at hj
      | y :: junk, hj =>
        have hr := buf_read_at (c := (A0 ++ x :: As).map some) (u := A0.map some)
          (v := As.map some) (x := x) (i := i) (by simp) (by simp [hi])
        have hw := write_at (c := pre ++ y :: junk ++ rest) (p := pre) (q := junk ++ rest)
          (x := y) lg (i := k) x (by simp) hk
        obtain ⟨lg2, i2, h2, hl2⟩ := ih fuel (A0 ++ [x]) (pre ++ [x]) junk rest (k :: lg)
          (i + 1) (k + 1) (by simp [hi]) (by simp [hk]) (by simp; omega) (by simpa using hj)
          (by simpa using hf)
        refine ⟨lg2, i2, ?_, ?_⟩
        · simp only [merge_drain, hlt, if_true, Option.bind_eq_bind, hr, Option.some_bind, hw]
          simp only [List.append_assoc, List.singleton_append, List.length_cons,
            Nat.cast_add, Nat.cast_one, List.cons_append] at h2 ⊢
          have e : k + ((As.length : Int) + 1) = k + 1 + As.length := by omega
          rw [e]
          exact h2
        · simp only [List.length_cons, Nat.cast_add, Nat.cast_one]
          exact ((LogExt.refl _ _ _).cons k (le_refl _) (by omega)).trans
            (hl2.mono (by omega) (by omega))

theorem merge_main_at (key : α → Int) (n1 n2 : Int) (fuel : Nat) :
    ∀ (As Bs A0 B0 pre junk post : List α) (lg : List Int) (i j k : Int), i = A0.length →
      j = B0.length → k = pre.length → n1 = A0.length + As.length →
      n2 = B0.length + Bs.length → junk.length = As.length + Bs.length →
      As.length + Bs.length ≤ fuel →
      ∃ (out A1 As1 B1 Bs1 junk1 : List α) (lg' : List Int) (k' : Int),
        merge_main key ⟨(A0 ++ As).map some⟩ ⟨(B0 ++ Bs).map some⟩ n1 n2 fuel i j k
            ⟨pre ++ junk ++ post, lg⟩ =
          some ((A1.length : Int), (B1.length : Int), k', ⟨pre ++ out ++ junk1 ++ post, lg'⟩) ∧
        k' = k + out.length ∧ A0 ++ As = A1 ++ As1 ∧ B0 ++ Bs = B1 ++ Bs1 ∧
        (As1 = [] ∨ Bs1 = []) ∧ mergeBy key As Bs = out ++ As1 ++ Bs1 ∧
        junk1.length = As1.length + Bs1.length ∧ LogExt k (k + junk.length - 1) lg lg' := by
  induction fuel with
  | zero =>
    intro As Bs A0 B0 pre junk post lg i j k hi hj hk h1 h2 hjk hf
    have hA : As = [] := List.length_eq_zero.1 (by omega)
    have hB : Bs = [] := List.length_eq_zero.1 (by omega)
    subst hA hB
    have hlt : ¬ (i < n1 ∧ j < n2) := by simp at h1; omega
    exact ⟨[], A0, [], B0, [], junk, lg, k, by rw [merge_main, if_neg hlt, hi, hj]; simp, by simp,
      rfl, rfl, Or.inl rfl, by simp [mergeBy], by simpa using hjk, LogExt.refl _ _ _⟩
  | succ fuel ih =>
    intro As Bs A0 B0 pre junk post lg i j k hi hj hk h1 h2 hjk hf
    match As, Bs, h1, h2, hjk, hf with
    | [], Bs, h1, h2, hjk, hf =>
      have hlt : ¬ (i < n1 ∧ j < n2) := by simp at h1; omega
      exact ⟨[], A0, [], B0, Bs, junk, lg, k, by rw [merge_main, if_neg hlt, hi, hj]; simp, by simp,
        rfl, rfl, Or.inl rfl, by simp [mergeBy], by simpa using hjk, LogExt.refl _ _ _⟩
    | x :: As, [], h1, h2, hjk, hf =>
      have hlt : ¬ (i < n1 ∧ j < n2) := by simp at h2; omega
      exact ⟨[], A0, x :: As, B0, [], junk, lg, k, by rw [merge_main, if_neg hlt, hi, hj]; simp, by simp,
        rfl, rfl, Or.inr rfl, by simp [mergeBy], by simpa using hjk, LogExt.refl _ _ _⟩
    | x :: As, y :: Bs, h1, h2, hjk, hf =>
      simp only [List.length_cons, Nat.cast_add, Nat.cast_one] at h1 h2 hjk hf
      have hlt : i < n1 ∧ j < n2 := by omega
      match junk, hjk with
      | [], hjk => simp at hjk; omega
      | z :: junk, hjk =>
        have hrx := buf_read_at (c := (A0 ++ x :: As).map some) (u := A0.map some)
          (v := As.map some) (x := x) (i := i) (by simp) (by simp [hi])
        have hry := buf_read_at (c := (B0 ++ y :: Bs).map some) (u := B0.map some)
          (v := Bs.map some) (x := y) (i := j) (by simp) (by simp [hj])
        simp only [List.length_cons, Nat.cast_add, Nat.cast_one] at hjk ⊢
        by_cases hle : key x ≤ key y
        · have hw := write_at (c := pre ++ z :: junk ++ post) (p := pre) (q := junk ++ post)
            (x := z) lg (i := k) x (by simp) hk
          obtain ⟨out, A1, As1, B1, Bs1, junk1, lg2, k2, e, ek, eA, eB, hor, hm, hj1, hl⟩ :=
            ih As (y :: Bs) (A0 ++ [x]) B0 (pre ++ [x]) junk post (k :: lg) (i + 1) j (k + 1)
              (by simp [hi]) hj (by simp [hk]) (by simp; omega) (by simp; omega)
              (by simp; omega) (by simp; omega)
          refine ⟨x :: out, A1, As1, B1, Bs1, junk1, lg2, k2, ?_, by simp [ek]; omega,
            by simpa using eA, eB, hor, ?_, hj1, ?_⟩
          · rw [merge_main, if_pos hlt]
            simp only [Option.bind_eq_bind, hrx, hry, Option.some_bind, hle, if_true, hw]
            simpa using e
          · rw [mergeBy, if_pos hle, hm]; simp
          · exact ((LogExt.refl _ _ _).cons k (le_refl _) (by omega)).trans
              (hl.mono (by omega) (by omega))
        · have hw := write_at (c := pre ++ z :: junk ++ post) (p := pre) (q := junk ++ post)
            (x := z) lg (i := k) y (by simp) hk
          obtain ⟨out, A1, As1, B1, Bs1, junk1, lg2, k2, e, ek, eA, eB, hor, hm, hj1, hl⟩ :=
            ih (x :: As) Bs A0 (B0 ++ [y]) (pre ++ [y]) junk post (k :: lg) i (j + 1) (k + 1)
              hi (by simp [hj]) (by simp [hk]) (by simp; omega) (by simp; omega)
              (by simp; omega) (by simp; omega)
          refine ⟨y :: out, A1, As1, B1, Bs1, junk1, lg2, k2, ?_, by simp [ek]; omega,
            eA, by simpa using eB, hor, ?_, hj1, ?_⟩
          · rw [merge_main, if_pos hlt]
            simp only [Option.bind_eq_bind, hrx, hry, Option.some_bind, hle, if_false, hw]
            simpa using e
          · rw [mergeBy, if_neg hle, hm]; simp
          · exact ((LogExt.refl _ _ _).cons k (le_refl _) (by omega)).trans
              (hl.mono (by omega) (by omega))

theorem merge_at (key : α → Int) (pre A B post : List α) (lg : List Int) (l mid r : Int)
    (hl : l = pre.length) (hm : mid = l + A.length - 1) (hr : r = mid + B.length) :
    ∃ lg', merge key ⟨pre ++ A ++ B ++ post, lg⟩ l mid r =
        some ⟨pre ++ mergeBy key A B ++ post, lg'⟩ ∧
      LogExt l r lg lg' := by
  have hn1 : mid - l + 1 = (A.length : Int) := by omega
  have hn2 : r - mid = (B.length : Int) := by omega
  obtain ⟨lg1, e1, hl1⟩ := merge_fill_at l A.length A A.length pre [] (B ++ post) lg 0 hl
    (by simp) (by simp) (le_refl _)
  obtain ⟨lg2, e2, hl2⟩ := merge_fill_at (mid + 1) B.length B B.length (pre ++ A) [] post lg1 0
    (by simp; omega) (by simp) (by simp) (le_refl _)
  obtain ⟨out, A1, As1, B1, Bs1, junk1, lg3, k3, e3, ek, eA, eB, _, hmg, hj1, hl3⟩ :=
    merge_main_at key A.length B.length (A.length + B.length) A B [] [] pre (A ++ B) post lg2
      0 0 l (by simp) (by simp) hl (by simp) (by simp) (by simp) (le_refl _)
  have hA : A.length = A1.length + As1.length := by
    have := congrArg List.length eA; simpa using this
  have hB : B.length = B1.length + Bs1.length := by
    have := congrArg List.length eB; simpa using this
  obtain ⟨lg4, i4, e4, hl4⟩ := merge_drain_at (A.length : Int) As1 A.length A1 (pre ++ out)
    (junk1.take As1.length) (junk1.drop As1.length ++ post) lg3 A1.length k3 rfl
    (by simp [ek, hl]) (by simp [hA]) (by simp [hj1]) (by omega)
  obtain ⟨lg5, i5, e5, hl5⟩ := merge_drain_at (B.length : Int) Bs1 B.length B1 (pre ++ out ++ As1)
    (junk1.drop As1.length) post lg4 B1.length (k3 + As1.length) rfl
    (by simp [ek, hl]; omega) (by simp [hB]) (by simp [hj1]) (by omega)
  have hlen : out.length + As1.length + Bs1.length = A.length + B.length := by
    have h1 := congrArg List.length hmg
    have h2 := (mergeBy_perm key A B).length_eq
    simp only [List.length_append] at h1 h2
    omega
  rw [← eA] at e4
  rw [← eB] at e5
  refine ⟨lg5, ?_, ?_⟩
  · unfold merge
    simp only [hn1, hn2, malloc, Int.toNat_ofNat, Option.bind_eq_bind]
    simp only [List.map_nil, List.nil_append, List.append_nil, List.append_assoc] at e1 e2 e3 e4 e5 eA eB
    simp only [List.append_assoc]
    rw [e1]
    simp only [Option.some_bind]
    rw [e2]
    simp only [Option.some_bind]
    have hf : ((A.length : Int) + B.length).toNat = A.length + B.length := by omega
    rw [hf, e3]
    simp only [Option.some_bind]
    have hj : junk1 = junk1.take As1.length ++ junk1.drop As1.length :=
      (List.take_append_drop _ _).symm
    rw [hj]
    simp only [List.append_assoc]
    rw [e4]
    simp only [Option.some_bind]
    rw [e5]
    simp [hmg]
  · have h1 : LogExt l r lg lg1 := hl1.mono (le_refl _) (by omega)
    have h2 : LogExt l r lg1 lg2 := hl2.mono (by omega) (by omega)
    have h3 : LogExt l r lg2 lg3 := hl3.mono (le_refl _) (by simp; omega)
    have h4 : LogExt l r lg3 lg4 := hl4.mono (by omega) (by omega)
    have h5 : LogExt l r lg4 lg5 := hl5.mono (by omega) (by omega)
    exact (((h1.trans h2).trans h3).trans h4).trans h5

theorem merge_sort_fuel_of_ge (key : α → Int) (fuel : Nat) (m : Mem α) (l r : Int)
    (h : r ≤ l) : merge_sort_fuel key fuel m l r = some m := by
  have hlt : ¬ l < r := by omega
  cases fuel <;> simp [merge_sort_fuel, hlt]

theorem merge_sort_fuel_at (key : α → Int) (fuel : Nat) :
    ∀ (pre seg post : List α) (lg : List Int) (l r : Int), l = pre.length →
      r = l + seg.length - 1 → seg.length ≤ fuel + 1 →
      ∃ out lg', merge_sort_fuel key fuel ⟨pre ++ seg ++ post, lg⟩ l r =
          some ⟨pre ++ out ++ post, lg'⟩ ∧
        SortedBy key out ∧ out.Perm seg ∧ (∀ k, withKey key k out = withKey key k seg) ∧
        LogExt l r lg lg' := by
  induction fuel with
  | zero =>
    intro pre seg post lg l r hl hr hf
    refine ⟨seg, lg, merge_sort_fuel_of_ge key 0 _ l r (by omega), ?_, List.Perm.refl _,
      fun _ => rfl, LogExt.refl _ _ _⟩
    match seg, hf with
    | [], _ => exact List.Pairwise.nil
    | [a], _ => exact List.pairwise_singleton _ _
  | succ fuel ih =>
    intro pre seg post lg l r hl hr hf
    by_cases hlt : l < r
    · have hd : Int.tdiv (r - l) 2 = (r - l) / 2 := Int.tdiv_eq_ediv (by omega) (by omega)
      obtain ⟨na, hna⟩ : ∃ na : Nat, (na : Int) = (r - l) / 2 + 1 :=
        ⟨((r - l) / 2 + 1).toNat, by omega⟩
      have hna2 : na ≤ seg.length := by omega
      have hseg : seg = seg.take na ++ seg.drop na := (List.take_append_drop _ _).symm
      have hA : (seg.take na).length = na := by rw [List.length_take]; omega
      have hB : (seg.drop na).length = seg.length - na := by rw [List.length_drop]
      obtain ⟨oA, lg1, e1, sA, pA, kA, hl1⟩ := ih pre (seg.take na) (seg.drop na ++ post) lg l
        (l + (r - l) / 2) hl (by omega) (by omega)
      obtain ⟨oB, lg2, e2, sB, pB, kB, hl2⟩ := ih (pre ++ oA) (seg.drop na) post lg1
        (l + (r - l) / 2 + 1) r (by simp [pA.length_eq, hA]; omega) (by omega) (by omega)
      obtain ⟨lg3, e3, hl3⟩ := merge_at key pre oA oB post lg2 l (l + (r - l) / 2) r hl
        (by rw [pA.length_eq, hA]; omega) (by rw [pB.length_eq, hB]; omega)
      refine ⟨mergeBy key oA oB, lg3, ?_, mergeBy_sorted key oA oB sA sB, ?_, ?_, ?_⟩
      · rw [merge_sort_fuel, if_pos hlt]
        simp only [hd, Option.bind_eq_bind]
        rw [hseg]
        simp only [List.append_assoc] at e1 e2 e3 ⊢
        rw [e1]
        simp only [Option.some_bind]
        rw [e2]
        simp only [Option.some_bind]
        exact e3
      · refine (mergeBy_perm key oA oB).trans ?_
        rw [hseg]
        exact pA.append pB
      · intro k
        rw [mergeBy_withKey key k oA oB sA, kA, kB, ← withKey_append, ← hseg]
      · exact ((hl1.mono (le_refl _) (by omega)).trans (hl2.mono (by omega) (le_refl _))).trans
          hl3
    · refine ⟨seg, lg, merge_sort_fuel_of_ge key _ _ l r (by omega), ?_, List.Perm.refl _,
        fun _ => rfl, LogExt.refl _ _ _⟩
      have h1 : seg.length ≤ 1 := by omega
      match seg, h1 with
      | [], _ => exact List.Pairwise.nil
      | [a], _ => exact List.pairwise_singleton _ _

theorem partition_loop_at (key : α → Int) (pivot : α) (high : Int) (rest : List α) :
    ∀ (fuel : Nat) (pre A B post : List α) (lg : List Int) (i j : Int),
      i + 1 = pre.length + A.length → j = pre.length + A.length + B.length →
      high = j + rest.length → rest.length ≤ fuel →
      (∀ a ∈ A, key a < key pivot) → (∀ b ∈ B, key pivot ≤ key b) →
      ∃ (A1 B1 : List α) (lg' : List Int) (i' : Int),
        partition_loop key pivot high fuel i j ⟨pre ++ A ++ B ++ rest ++ post, lg⟩ =
          some (i', ⟨pre ++ A1 ++ B1 ++ post, lg'⟩) ∧
        i' + 1 = pre.length + A1.length ∧
        (∀ a ∈ A1, key a < key pivot) ∧ (∀ b ∈ B1, key pivot ≤ key b) ∧
        (A1 ++ B1).Perm (A ++ B ++ rest) ∧ LogExt pre.length (high - 1) lg lg' := by
  induction rest with
  | nil =>
    intro fuel pre A B post lg i j hi hj hh _ hA hB
    have hlt : ¬ j < high := by simp at hh; omega
    refine ⟨A, B, lg, i, ?_, hi, hA, hB, by simp, LogExt.refl _ _ _⟩
    cases fuel <;> simp [partition_loop, hlt]
  | cons x rest ih =>
    intro fuel pre A B post lg i j hi hj hh hf hA hB
    simp only [List.length_cons, Nat.cast_add, Nat.cast_one] at hh
    have hlt : j < high := by omega
    cases fuel with
    | zero => simp at hf
    | succ fuel =>
      have hf2 : rest.length ≤ fuel := by simpa using hf
      have hrj := read_at (c := pre ++ A ++ B ++ x :: rest ++ post) (p := pre ++ A ++ B)
        (q := rest ++ post) (x := x) lg (i := j) (by simp) (by simp [hj]; omega)
      rw [partition_loop, if_pos hlt]
      simp only [Option.bind_eq_bind, hrj, Option.some_bind]
      by_cases hx : key x < key pivot
      · simp only [hx, if_true]
        match B, hj, hB with
        | [], hj, hB =>
          have hij : i + 1 = j := by simp at hj; omega
          have hc : pre ++ A ++ [] ++ x :: rest ++ post = (pre ++ A) ++ x :: (rest ++ post) := by
            simp
          have hjl : j = ((pre ++ A).length : Nat) := by simp at hj ⊢; omega
          rw [hij, read_at _ hc hjl]
          simp only [Option.some_bind]
          rw [read_at _ hc hjl]
          simp only [Option.some_bind]
          rw [write_at _ x hc hjl]
          simp only [Option.some_bind]
          rw [write_at _ x rfl hjl]
          simp only [Option.some_bind]
          obtain ⟨A1, B1, lg2, i2, e, hi2, hA2, hB2, hp, hl⟩ := ih fuel pre (A ++ [x]) [] post
            (j :: j :: j :: j :: j :: lg) j (j + 1) (by simp; omega) (by simp; omega) (by omega)
            hf2 (by
              intro a ha
              rcases List.mem_append.1 ha with ha | ha
              · exact hA a ha
              · simp at ha; rw [ha]; exact hx) (by simp)
          refine ⟨A1, B1, lg2, i2, ?_, hi2, hA2, hB2, ?_, ?_⟩
          · simpa using e
          · simpa using hp
          · refine LogExt.trans ?_ hl
            refine ⟨[j, j, j, j, j], rfl, ?_⟩
            intro t ht
            simp at ht hj
            omega
        | b :: B2, hj, hB =>
          simp only [List.length_cons, Nat.cast_add, Nat.cast_one] at hj
          have hc1 : pre ++ A ++ b :: B2 ++ x :: rest ++ post =
              (pre ++ A) ++ b :: (B2 ++ x :: rest ++ post) := by simp
          have hi1 : i + 1 = ((pre ++ A).length : Nat) := by simp; omega
          have hc2 : pre ++ A ++ b :: B2 ++ x :: rest ++ post =
              (pre ++ A ++ b :: B2) ++ x :: (rest ++ post) := by simp
          have hj2 : j = ((pre ++ A ++ b :: B2).length : Nat) := by simp; omega
          rw [read_at _ hc1 hi1]
          simp only [Option.some_bind]
          rw [read_at _ hc2 hj2]
          simp only [Option.some_bind]
          rw [write_at _ x hc1 hi1]
          simp only [Option.some_bind]
          have hc3 : (pre ++ A) ++ x :: (B2 ++ x :: rest ++ post) =
              (pre ++ A ++ x :: B2) ++ x :: (rest ++ post) := by simp
          have hj3 : j = ((pre ++ A ++ x :: B2).length : Nat) := by simp; omega
          rw [write_at _ b hc3 hj3]
          simp only [Option.some_bind]
          obtain ⟨A1, B1, lg2, i2, e, hi2, hA2, hB2, hp, hl⟩ := ih fuel pre (A ++ [x])
            (B2 ++ [b]) post (j :: (i + 1) :: j :: (i + 1) :: j :: lg) (i + 1) (j + 1)
            (by simp; omega) (by simp; omega) (by omega) hf2 (by
              intro a ha
              rcases List.mem_append.1 ha with ha | ha
              · exact hA a ha
              · simp at ha; rw [ha]; exact hx) (by
              intro a ha
              rcases List.mem_append.1 ha with ha | ha
              · exact hB a (by simp [ha])
              · simp at ha; rw [ha]; exact hB b (by simp))
          refine ⟨A1, B1, lg2, i2, ?_, hi2, hA2, hB2, ?_, ?_⟩
          · simpa using e
          · refine hp.trans ?_
            simp only [List.append_assoc, List.singleton_append, List.cons_append]
            refine List.Perm.append_left A ?_
            have h1 : (x :: (B2 ++ b :: rest)).Perm (x :: b :: (B2 ++ rest)) :=
              (@List.perm_middle _ b B2 rest).cons x
            have h2 : (b :: (B2 ++ x :: rest)).Perm (b :: x :: (B2 ++ rest)) :=
              (@List.perm_middle _ x B2 rest).cons b
            exact h1.trans ((List.Perm.swap b x _).trans h2.symm)
          · refine LogExt.trans ?_ hl
            refine ⟨[j, i + 1, j, i + 1, j], rfl, ?_⟩
            intro t ht
            simp at ht
            omega
      · simp only [hx, if_false]
        obtain ⟨A1, B1, lg2, i2, e, hi2, hA2, hB2, hp, hl⟩ := ih fuel pre A (B ++ [x]) post
          (j :: lg) i (j + 1) hi (by simp; omega) (by omega) hf2 hA (by
            intro a ha
            rcases List.mem_append.1 ha with ha | ha
            · exact hB a ha
            · simp at ha; rw [ha]; omega)
        refine ⟨A1, B1, lg2, i2, ?_, hi2, hA2, hB2, ?_, ?_⟩
        · simpa using e
        · simpa using hp
        · exact ((LogExt.refl _ _ _).cons j (by omega) (by omega)).trans hl

theorem partition_at (key : α → Int) (pre body post : List α) (pv : α) (lg : List Int)
    (low high : Int) (hl : low = pre.length) (hh : high = low + body.length) :
    ∃ (lows highs : List α) (lg' : List Int) (p : Int),
      partition key ⟨pre ++ (body ++ [pv]) ++ post, lg⟩ low high =
        some (p, ⟨pre ++ (lows ++ pv :: highs) ++ post, lg'⟩) ∧
      p = low + lows.length ∧
      (∀ a ∈ lows, key a < key pv) ∧ (∀ b ∈ highs, key pv ≤ key b) ∧
      (lows ++ pv :: highs).Perm (body ++ [pv]) ∧ LogExt low high lg lg' := by
  have hc : pre ++ (body ++ [pv]) ++ post = (pre ++ body) ++ pv :: post := by simp
  have hhl : high = ((pre ++ body).length : Nat) := by simp; omega
  obtain ⟨A1, B1, lg1, i1, e1, hi1, hA1, hB1, hp1, hl1⟩ := partition_loop_at key pv high body
    body.length pre [] [] (pv :: post) (high :: lg) (low - 1) low (by simp; omega)
    (by simp; omega) (by omega) (le_refl _) (by simp) (by simp)
  have hlen : A1.length + B1.length = body.length := by
    have := hp1.length_eq; simpa using this
  have hl0 : LogExt low high lg lg1 :=
    ((LogExt.refl _ _ _).cons high (by omega) (le_refl _)).trans
      (hl1.mono (by omega) (by omega))
  unfold partition
  rw [read_at lg hc hhl]
  simp only [Option.bind_eq_bind, Option.some_bind]
  have e0 : (high - low).toNat = body.length := by omega
  rw [e0]
  simp only [List.append_nil, List.append_assoc, List.nil_append, List.singleton_append]
    at e1 ⊢
  rw [e1]
  simp only [Option.some_bind]
  match B1, hB1, hp1, hlen with
  | [], hB1, hp1, hlen =>
    have hc1 : pre ++ (A1 ++ ([] ++ pv :: post)) = (pre ++ A1) ++ pv :: post := by simp
    have hi2 : i1 + 1 = ((pre ++ A1).length : Nat) := by simp; omega
    have hh2 : high = ((pre ++ A1).length : Nat) := by simp at hlen ⊢; omega
    rw [read_at _ hc1 hi2]
    simp only [Option.some_bind]
    rw [read_at _ hc1 hh2]
    simp only [Option.some_bind]
    rw [write_at _ pv hc1 hi2]
    simp only [Option.some_bind]
    rw [write_at _ pv rfl hh2]
    refine ⟨A1, [], high :: (i1 + 1) :: high :: (i1 + 1) :: lg1, i1 + 1, by simp, by omega, hA1, by simp, ?_, ?_⟩
    · simpa using hp1.append_right [pv]
    · refine hl0.trans ⟨[high, i1 + 1, high, i1 + 1], rfl, ?_⟩
      intro t ht
      simp at ht hlen
      omega
  | b :: B2, hB1, hp1, hlen =>
    simp only [List.length_cons] at hlen
    have hc1 : pre ++ (A1 ++ (b :: B2 ++ pv :: post)) =
        (pre ++ A1) ++ b :: (B2 ++ pv :: post) := by simp
    have hi2 : i1 + 1 = ((pre ++ A1).length : Nat) := by simp; omega
    have hc2 : pre ++ (A1 ++ (b :: B2 ++ pv :: post)) =
        (pre ++ A1 ++ b :: B2) ++ pv :: post := by simp
    have hh2 : high = ((pre ++ A1 ++ b :: B2).length : Nat) := by simp; omega
    rw [read_at _ hc1 hi2]
    simp only [Option.some_bind]
    rw [read_at _ hc2 hh2]
    simp only [Option.some_bind]
    rw [write_at _ pv hc1 hi2]
    simp only [Option.some_bind]
    have hc3 : (pre ++ A1) ++ pv :: (B2 ++ pv :: post) =
        (pre ++ A1 ++ pv :: B2) ++ pv :: post := by simp
    have hh3 : high = ((pre ++ A1 ++ pv :: B2).length : Nat) := by simp; omega
    rw [write_at _ b hc3 hh3]
    refine ⟨A1, B2 ++ [b], high :: (i1 + 1) :: high :: (i1 + 1) :: lg1, i1 + 1, by simp, by omega, hA1, ?_, ?_, ?_⟩
    · intro a ha
      rcases List.mem_append.1 ha with ha | ha
      · exact hB1 a (by simp [ha])
      · simp at ha; rw [ha]; exact hB1 b (by simp)
    · have h1 : (A1 ++ pv :: (B2 ++ [b])).Perm ((A1 ++ b :: B2) ++ [pv]) := by
        simp only [List.append_assoc, List.cons_append]
        refine List.Perm.append_left A1 ?_
        have h2 : (pv :: (B2 ++ [b])).Perm (pv :: b :: B2) :=
          (List.perm_append_singleton b B2).cons pv
        have h3 : (b :: (B2 ++ [pv])).Perm (b :: pv :: B2) :=
          (List.perm_append_singleton pv B2).cons b
        exact h2.trans ((List.Perm.swap b pv B2).trans h3.symm)
      exact h1.trans (by simpa using hp1.append_right [pv])
    · refine hl0.trans ⟨[high, i1 + 1, high, i1 + 1], rfl, ?_⟩
      intro t ht
      simp at ht
      omega

theorem quick_sort_fuel_of_ge (key : α → Int) (fuel : Nat) (m : Mem α) (low high : Int)
    (h : high ≤ low) : quick_sort_fuel key fuel m low high = some m := by
  have hlt : ¬ low < high := by omega
  cases fuel <;> simp [quick_sort_fuel, hlt]

theorem quick_sort_fuel_at (key : α → Int) (fuel : Nat) :
    ∀ (pre seg post : List α) (lg : List Int) (low high : Int), low = pre.length →
      high = low + seg.length - 1 → seg.length ≤ fuel + 1 →
      ∃ out lg', quick_sort_fuel key fuel ⟨pre ++ seg ++ post, lg⟩ low high =
          some ⟨pre ++ out ++ post, lg'⟩ ∧
        SortedBy key out ∧ out.Perm seg ∧ LogExt low high lg lg' := by
  induction fuel with
  | zero =>
    intro pre seg post lg low high hl hh hf
    refine ⟨seg, lg, quick_sort_fuel_of_ge key 0 _ low high (by omega), ?_, List.Perm.refl _,
      LogExt.refl _ _ _⟩
    match seg, hf with
    | [], _ => exact List.Pairwise.nil
    | [a], _ => exact List.pairwise_singleton _ _
  | succ fuel ih =>
    intro pre seg post lg low high hl hh hf
    by_cases hlt : low < high
    · rcases List.eq_nil_or_concat seg with h0 | ⟨body, pv, h0⟩
      · subst h0
        simp only [List.length_nil, Nat.cast_zero] at hh
        omega
      · rw [List.concat_eq_append] at h0
        subst h0
        simp only [List.length_append, List.length_singleton, Nat.cast_add, Nat.cast_one] at hh hf
        obtain ⟨lows, highs, lg1, p, e1, hp, hA, hB, hperm, hl1⟩ :=
          partition_at key pre body post pv lg low high hl (by omega)
        have hlen : lows.length + (highs.length + 1) = body.length + 1 := by
          have := hperm.length_eq; simpa using this
        obtain ⟨oL, lg2, e2, sL, pL, hl2⟩ := ih pre lows (pv :: highs ++ post) lg1 low (p - 1) hl
          (by omega) (by omega)
        obtain ⟨oH, lg3, e3, sH, pH, hl3⟩ := ih (pre ++ oL ++ [pv]) highs post lg2 (p + 1) high
          (by simp [pL.length_eq]; omega) (by omega) (by omega)
        refine ⟨oL ++ pv :: oH, lg3, ?_, ?_, ?_, ?_⟩
        · rw [quick_sort_fuel, if_pos hlt]
          simp only [Option.bind_eq_bind, e1, Option.some_bind]
          simp only [List.append_assoc, List.cons_append, List.nil_append] at e2 e3 ⊢
          rw [e2]
          simp only [Option.some_bind]
          exact e3
        · refine List.pairwise_append.2 ⟨sL, List.pairwise_cons.2 ⟨?_, sH⟩, ?_⟩
          · intro b hb
            exact hB b (pH.subset hb)
          · intro a ha b hb
            have h1 := hA a (pL.subset ha)
            rcases List.mem_cons.1 hb with rfl | hb
            · omega
            · have h2 := hB b (pH.subset hb)
              omega
        · exact (pL.append (pH.cons pv)).trans hperm
        · exact (hl1.trans (hl2.mono (le_refl _) (by omega))).trans
            (hl3.mono (by omega) (le_refl _))
    · refine ⟨seg, lg, quick_sort_fuel_of_ge key _ _ low high (by omega), ?_, List.Perm.refl _,
        LogExt.refl _ _ _⟩
      have h1 : seg.length ≤ 1 := by omega
      match seg, h1 with
      | [], _ => exact List.Pairwise.nil
      | [a], _ => exact List.pairwise_singleton _ _

theorem slice_at (pre seg post : List α) (l r : Int) (hl : l = pre.length)
    (hr : r = l + seg.length - 1) : slice (pre ++ seg ++ post) l r = seg := by
  have h1 : l.toNat = pre.length := by omega
  have h2 : (r + 1 - l).toNat = seg.length := by omega
  simp [slice, h1, h2]

theorem slice_of_lt (a : List α) (l r : Int) (h : r < l) : slice a l r = [] := by
  have h2 : (r + 1 - l).toNat = 0 := by omega
  simp [slice, h2]

theorem split_range (arr : List α) (l r : Int) (hl : 0 ≤ l) (hlr : l ≤ r + 1)
    (hr : r < arr.length) :
    ∃ pre seg post, arr = pre ++ seg ++ post ∧ l = pre.length ∧ r = l + seg.length - 1 := by
  refine ⟨arr.take l.toNat, (arr.drop l.toNat).take (r + 1 - l).toNat,
    (arr.drop l.toNat).drop (r + 1 - l).toNat, ?_, ?_, ?_⟩
  · rw [List.append_assoc, List.take_append_drop, List.take_append_drop]
  · rw [List.length_take]; omega
  · rw [List.length_take, List.length_drop]; omega

theorem frame_get (pre seg out post : List α) (h : out.length = seg.length) (i : Nat)
    (hi : i < pre.length ∨ pre.length + seg.length ≤ i) :
    (pre ++ out ++ post)[i]? = (pre ++ seg ++ post)[i]? := by
  rcases hi with hi | hi
  · simp only [List.append_assoc]
    rw [List.getElem?_append_left hi, List.getElem?_append_left hi]
  · rw [List.getElem?_append_right (by simp; omega),
      List.getElem?_append_right (by simp; omega)]
    simp [h]

theorem merge_sort_range (key : α → Int) (arr : List α) (lg : List Int) (l r : Int)
    (hl : 0 ≤ l) (hr : r < arr.length) :
    ∃ out lg', merge_sort key ⟨arr, lg⟩ l r = some ⟨out, lg'⟩ ∧ out.length = arr.length ∧
      (∀ i : Nat, ((i : Int) < l ∨ r < (i : Int)) → out[i]? = arr[i]?) ∧
      SortedBy key (slice out l r) ∧ (slice out l r).Perm (slice arr l r) ∧
      (∀ k, withKey key k (slice out l r) = withKey key k (slice arr l r)) ∧
      LogExt l r lg lg' := by
  by_cases hlr : l ≤ r
  · obtain ⟨pre, seg, post, rfl, hl1, hr1⟩ := split_range arr l r hl (by omega) hr
    obtain ⟨out, lg1, e, hs, hp, hk, hlog⟩ := merge_sort_fuel_at key (r - l).toNat pre seg post
      lg l r hl1 hr1 (by omega)
    have hlen : out.length = seg.length := hp.length_eq
    refine ⟨pre ++ out ++ post, lg1, e, by simp [hlen], ?_, ?_, ?_, ?_, hlog⟩
    · intro i hi
      exact frame_get pre seg out post hlen i (by omega)
    · rw [slice_at pre out post l r hl1 (by omega)]; exact hs
    · rw [slice_at pre out post l r hl1 (by omega), slice_at pre seg post l r hl1 hr1]
      exact hp
    · intro k
      rw [slice_at pre out post l r hl1 (by omega), slice_at pre seg post l r hl1 hr1]
      exact hk k
  · refine ⟨arr, lg, merge_sort_fuel_of_ge key _ _ l r (by omega), rfl, fun _ _ => rfl, ?_,
      List.Perm.refl _, fun _ => rfl, LogExt.refl _ _ _⟩
    rw [slice_of_lt arr l r (by omega)]
    exact List.Pairwise.nil

theorem quick_sort_range (key : α → Int) (arr : List α) (lg : List Int) (low high : Int)
    (hl : 0 ≤ low) (hr : high < arr.length) :
    ∃ out lg', quick_sort key ⟨arr, lg⟩ low high = some ⟨out, lg'⟩ ∧
      out.length = arr.length ∧
      (∀ i : Nat, ((i : Int) < low ∨ high < (i : Int)) → out[i]? = arr[i]?) ∧
      SortedBy key (slice out low high) ∧ (slice out low high).Perm (slice arr low high) ∧
      LogExt low high lg lg' := by
  by_cases hlr : low ≤ high
  · obtain ⟨pre, seg, post, rfl, hl1, hr1⟩ := split_range arr low high hl (by omega) hr
    obtain ⟨out, lg1, e, hs, hp, hlog⟩ := quick_sort_fuel_at key (high - low).toNat pre seg
      post lg low high hl1 hr1 (by omega)
    have hlen : out.length = seg.length := hp.length_eq
    refine ⟨pre ++ out ++ post, lg1, e, by simp [hlen], ?_, ?_, ?_, hlog⟩
    · intro i hi
      exact frame_get pre seg out post hlen i (by omega)
    · rw [slice_at pre out post low high hl1 (by omega)]; exact hs
    · rw [slice_at pre out post low high hl1 (by omega),
        slice_at pre seg post low high hl1 hr1]
      exact hp
  · refine ⟨arr, lg, quick_sort_fuel_of_ge key _ _ low high (by omega), rfl, fun _ _ => rfl,
      ?_, List.Perm.refl _, LogExt.refl _ _ _⟩
    rw [slice_of_lt arr low high (by omega)]
    exact List.Pairwise.nil

theorem bubble_sort_range (key : α → Int) (arr : List α) (lg : List Int) (n : Int)
    (hn : n ≤ arr.length) :
    ∃ out lg', bubble_sort key ⟨arr, lg⟩ n = some ⟨out, lg'⟩ ∧ out.length = arr.length ∧
      (∀ i : Nat, n ≤ (i : Int) → out[i]? = arr[i]?) ∧
      SortedBy key (slice out 0 (n - 1)) ∧ (slice out 0 (n - 1)).Perm (slice arr 0 (n - 1)) ∧
      (∀ k, withKey key k (slice out 0 (n - 1)) = withKey key k (slice arr 0 (n - 1))) ∧
      LogExt 0 (n - 1) lg lg' := by
  obtain ⟨out, lg1, e, hs, hp, hk, hlog⟩ := bubble_sort_spec key arr lg n hn
  have hlen : out.length = (arr.take n.toNat).length := hp.length_eq
  have hlen2 : (arr.take n.toNat).length = n.toNat := by rw [List.length_take]; omega
  have harr : arr = [] ++ arr.take n.toNat ++ arr.drop n.toNat := by simp
  have hs1 : slice (out ++ arr.drop n.toNat) 0 (n - 1) = out := by
    by_cases h0 : 0 ≤ n
    · have := slice_at [] out (arr.drop n.toNat) 0 (n - 1) rfl (by omega)
      simpa using this
    · have ho : out = [] := List.length_eq_zero.1 (by omega)
      rw [slice_of_lt _ 0 (n - 1) (by omega), ho]
  have hs2 : slice arr 0 (n - 1) = arr.take n.toNat := by
    by_cases h0 : 0 ≤ n
    · conv_lhs => rw [harr]
      exact slice_at [] (arr.take n.toNat) (arr.drop n.toNat) 0 (n - 1) rfl (by omega)
    · have ho : arr.take n.toNat = [] := List.length_eq_zero.1 (by omega)
      rw [slice_of_lt _ 0 (n - 1) (by omega), ho]
  refine ⟨out ++ arr.drop n.toNat, lg1, e, ?_, ?_, ?_, ?_, ?_, hlog⟩
  · rw [List.length_append, hlen, List.length_take, List.length_drop]; omega
  · intro i hi
    have := frame_get [] (arr.take n.toNat) out (arr.drop n.toNat) hlen i
      (Or.inr (by simp only [List.length_nil]; omega))
    simpa using this
  · rw [hs1]; exact hs
  · rw [hs1, hs2]; exact hp
  · intro k; rw [hs1, hs2]; exact hk k

theorem bubble_outer_eq_fold (key : α → Int) (n : Int) (fuel : Nat) :
    ∀ (i : Int) (m : Mem α), fuel = (n - 1 - i).toNat →
      bubble_outer key n fuel i m =
        (List.range fuel).foldlM (fun m (t : Nat) => bubble_pass key n (i + t) m) m := by
  induction fuel with
  | zero =>
    intro i m hf
    have hlt : ¬ i < n - 1 := by omega
    simp [bubble_outer, hlt]
  | succ fuel ih =>
    intro i m hf
    have hlt : i < n - 1 := by omega
    rw [bubble_outer, if_pos hlt, List.range_succ_eq_map, List.foldlM_cons]
    simp only [List.foldlM_map, bind, Nat.cast_zero, add_zero]
    congr 1
    funext m1
    rw [ih (i + 1) m1 (by omega)]
    congr 1
    funext m2 t
    congr 1
    push_cast
    omega

theorem copy_array_loop_at (n : Int) (rest : List α) :
    ∀ (fuel : Nat) (sdn spost ddn junk dpost : List α) (ls ld : List Int) (i : Int),
      i = sdn.length → i = ddn.length → n = i + rest.length → junk.length = rest.length →
      rest.length ≤ fuel →
      ∃ ls' ld', copy_array_loop n fuel i ⟨sdn ++ rest ++ spost, ls⟩ ⟨ddn ++ junk ++ dpost, ld⟩ =
          some (⟨sdn ++ rest ++ spost, ls'⟩, ⟨ddn ++ rest ++ dpost, ld'⟩) ∧
        LogExt 0 (n - 1) ls ls' ∧ LogExt 0 (n - 1) ld ld' := by
  induction rest with
  | nil =>
    intro fuel sdn spost ddn junk dpost ls ld i _ _ hn hj _
    have hlt : ¬ i < n := by simp at hn; omega
    have hj0 : junk = [] := List.length_eq_zero.1 (by simpa using hj)
    subst hj0
    refine ⟨ls, ld, ?_, LogExt.refl _ _ _, LogExt.refl _ _ _⟩
    cases fuel <;> simp [copy_array_loop, hlt]
  | cons x rest ih =>
    intro fuel sdn spost ddn junk dpost ls ld i his hid hn hj hf
    simp only [List.length_cons, Nat.cast_add, Nat.cast_one] at hn
    have hlt : i < n := by omega
    cases fuel with
    | zero => simp at hf
    | succ fuel =>
      match junk, hj with
      | [], hj => simp at hj
      | y :: junk, hj =>
        have hr := read_at (c := sdn ++ x :: rest ++ spost) (p := sdn) (q := rest ++ spost)
          (x := x) ls (i := i) (by simp) his
        have hw := write_at (c := ddn ++ y :: junk ++ dpost) (p := ddn) (q := junk ++ dpost)
          (x := y) ld (i := i) x (by simp) hid
        obtain ⟨ls2, ld2, e, hl1, hl2⟩ := ih fuel (sdn ++ [x]) spost (ddn ++ [x]) junk dpost
          (i :: ls) (i :: ld) (i + 1) (by simp [his]) (by simp [hid]) (by omega)
          (by simpa using hj) (by simpa using hf)
        refine ⟨ls2, ld2, ?_, ((LogExt.refl _ _ _).cons i (by omega) (by omega)).trans hl1,
          ((LogExt.refl _ _ _).cons i (by omega) (by omega)).trans hl2⟩
        rw [copy_array_loop, if_pos hlt]
        simp only [Option.bind_eq_bind, hr, Option.some_bind, hw]
        simpa using e

theorem copy_array_spec (src dst : List α) (ls ld : List Int) (n : Int) (h0 : 0 ≤ n)
    (hs : n ≤ src.length) (hd : n ≤ dst.length) :
    ∃ ls' ld', copy_array ⟨src, ls⟩ ⟨dst, ld⟩ n =
        some (⟨src, ls'⟩, ⟨src.take n.toNat ++ dst.drop n.toNat, ld'⟩) ∧
      LogExt 0 (n - 1) ls ls' ∧ LogExt 0 (n - 1) ld ld' := by
  obtain ⟨ls1, ld1, e, hl1, hl2⟩ := copy_array_loop_at n (src.take n.toNat) n.toNat []
    (src.drop n.toNat) [] (dst.take n.toNat) (dst.drop n.toNat) ls ld 0 rfl rfl
    (by rw [List.length_take]; omega) (by rw [List.length_take, List.length_take]; omega)
    (by rw [List.length_take]; omega)
  refine ⟨ls1, ld1, ?_, hl1, hl2⟩
  simpa [copy_array] using e

theorem slice_full (a : List α) (n : Int) (h : n = a.length) : slice a 0 (n - 1) = a := by
  have := slice_at [] a [] 0 (n - 1) rfl (by omega)
  simpa using this

theorem sortedBy_id (l : List Int) : SortedBy id l ↔ List.Sorted (· ≤ ·) l := Iff.rfl

theorem bubble_sort_whole (key : α → Int) (arr : List α) (lg : List Int) :
    ∃ out lg', bubble_sort key ⟨arr, lg⟩ arr.length = some ⟨out, lg'⟩ ∧
      SortedBy key out ∧ out.Perm arr ∧ (∀ k, withKey key k out = withKey key k arr) ∧
      LogExt 0 ((arr.length : Int) - 1) lg lg' := by
  obtain ⟨out, lg1, e, hlen, _, hs, hp, hk, hlog⟩ :=
    bubble_sort_range key arr lg arr.length (le_refl _)
  rw [slice_full out _ (by rw [hlen])] at hs hp hk
  rw [slice_full arr _ rfl] at hp hk
  exact ⟨out, lg1, e, hs, hp, hk, hlog⟩

theorem merge_sort_whole (key : α → Int) (arr : List α) (lg : List Int) :
    ∃ out lg', merge_sort key ⟨arr, lg⟩ 0 ((arr.length : Int) - 1) = some ⟨out, lg'⟩ ∧
      SortedBy key out ∧ out.Perm arr ∧ (∀ k, withKey key k out = withKey key k arr) ∧
      LogExt 0 ((arr.length : Int) - 1) lg lg' := by
  obtain ⟨out, lg1, e, hlen, _, hs, hp, hk, hlog⟩ :=
    merge_sort_range key arr lg 0 ((arr.length : Int) - 1) (le_refl _) (by omega)
  rw [slice_full out _ (by rw [hlen])] at hs hp hk
  rw [slice_full arr _ rfl] at hp hk
  exact ⟨out, lg1, e, hs, hp, hk, hlog⟩

theorem quick_sort_whole (key : α → Int) (arr : List α) (lg : List Int) :
    ∃ out lg', quick_sort key ⟨arr, lg⟩ 0 ((arr.length : Int) - 1) = some ⟨out, lg'⟩ ∧
      SortedBy key out ∧ out.Perm arr ∧ LogExt 0 ((arr.length : Int) - 1) lg lg' := by
  obtain ⟨out, lg1, e, hlen, _, hs, hp, hlog⟩ :=
    quick_sort_range key arr lg 0 ((arr.length : Int) - 1) (le_refl _) (by omega)
  rw [slice_full out _ (by rw [hlen])] at hs hp
  rw [slice_full arr _ rfl] at hp
  exact ⟨out, lg1, e, hs, hp, hlog⟩

theorem eq_of_sorted_perm {out arr : List Int} (hs : SortedBy id out)
    (ha : List.Sorted (· ≤ ·) arr) (hp : out.Perm arr) : out = arr :=
  List.eq_of_perm_of_sorted hp ((sortedBy_id out).1 hs) ha

theorem merge_range_full (key : α → Int) (arr : List α) (lg : List Int) (l mid r : Int)
    (hl : 0 ≤ l) (hlm : l ≤ mid + 1) (hmr : mid ≤ r) (hr : r < arr.length) :
    ∃ out lg', merge key ⟨arr, lg⟩ l mid r = some ⟨out, lg'⟩ ∧ out.length = arr.length ∧
      (∀ i : Nat, ((i : Int) < l ∨ r < (i : Int)) → out[i]? = arr[i]?) ∧
      slice out l r = mergeBy key (slice arr l mid) (slice arr (mid + 1) r) ∧
      slice arr l r = slice arr l mid ++ slice arr (mid + 1) r ∧
      LogExt l r lg lg' := by
  obtain ⟨pre, seg, post, rfl, hl1, hr1⟩ := split_range arr l r hl (by omega) hr
  obtain ⟨A, B, hseg, hA⟩ : ∃ A B : List α, seg = A ++ B ∧ (A.length : Int) = mid + 1 - l :=
    ⟨seg.take (mid + 1 - l).toNat, seg.drop (mid + 1 - l).toNat,
      (List.take_append_drop _ _).symm, by rw [List.length_take]; omega⟩
  subst hseg
  simp only [List.length_append, Nat.cast_add] at hr1
  obtain ⟨lg1, e, hlog⟩ := merge_at key pre A B post lg l mid r hl1 (by omega) (by omega)
  have hlen : (mergeBy key A B).length = (A ++ B).length := (mergeBy_perm key A B).length_eq
  have hsA : slice (pre ++ (A ++ B) ++ post) l mid = A := by
    have := slice_at pre A (B ++ post) l mid hl1 (by omega)
    simpa using this
  have hsB : slice (pre ++ (A ++ B) ++ post) (mid + 1) r = B := by
    have := slice_at (pre ++ A) B post (mid + 1) r (by simp; omega) (by omega)
    simpa using this
  have hsAB : slice (pre ++ (A ++ B) ++ post) l r = A ++ B :=
    slice_at pre (A ++ B) post l r hl1 (by simp; omega)
  rw [List.append_assoc pre A B] at e
  refine ⟨pre ++ mergeBy key A B ++ post, lg1, e, ?_, ?_, ?_, ?_, hlog⟩
  · simp only [List.length_append, hlen]
  · intro i hi
    exact frame_get pre (A ++ B) (mergeBy key A B) post hlen i (by simp; omega)
  · rw [hsA, hsB]
    exact slice_at pre (mergeBy key A B) post l r hl1 (by rw [hlen]; simp; omega)
  · rw [hsA, hsB, hsAB]

theorem sorted_filter_split (key : α → Int) (K : Int) (s : List α) (hs : SortedBy key s) :
    s = s.filter (fun a => key a < K) ++ s.filter (fun a => K ≤ key a) := by
  induction s with
  | nil => rfl
  | cons a t ih =>
    have h1 := List.pairwise_cons.1 hs
    by_cases ha : key a < K
    · have hna : ¬ K ≤ key a := by omega
      simp only [List.filter_cons, ha, hna, decide_True, decide_False, if_true]
      simp only [Bool.false_eq_true, if_false, List.cons_append]
      exact congrArg (List.cons a) (ih h1.2)
    · have hna : K ≤ key a := by omega
      have hnil : t.filter (fun b => key b < K) = [] := by
        rw [List.filter_eq_nil_iff]
        intro b hb
        have := h1.1 b hb
        simp
        omega
      have hall : t.filter (fun b => K ≤ key b) = t := by
        rw [List.filter_eq_self]
        intro b hb
        have := h1.1 b hb
        simp
        omega
      simp [List.filter_cons, ha, hna, hnil, hall]

theorem sorted_pivot_index (key : α → Int) (s lows highs : List α) (pv : α)
    (hs : SortedBy key s) (hp : s.Perm (lows ++ pv :: highs))
    (hA : ∀ a ∈ lows, key a < key pv) (hB : ∀ b ∈ highs, key pv ≤ key b) :
    ∃ v, s[lows.length]? = some v ∧ key v = key pv := by
  have hsplit := sorted_filter_split key (key pv) s hs
  have hF : (s.filter (fun a => key a < key pv)).length = lows.length := by
    rw [(hp.filter _).length_eq, List.filter_append, List.filter_cons]
    have h1 : lows.filter (fun a => decide (key a < key pv)) = lows := by
      rw [List.filter_eq_self]
      intro a ha
      simpa using hA a ha
    have h2 : highs.filter (fun a => decide (key a < key pv)) = [] := by
      rw [List.filter_eq_nil_iff]
      intro b hb
      have := hB b hb
      simp
      omega
    simp [h1, h2]
  have hG : SortedBy key (s.filter (fun a => key pv ≤ key a)) :=
    List.Pairwise.sublist (List.filter_sublist s) hs
  have hpv : pv ∈ s.filter (fun a => key pv ≤ key a) := by
    rw [List.mem_filter]
    exact ⟨hp.symm.subset (by simp), by simp⟩
  match hg : s.filter (fun a => key pv ≤ key a), hG, hpv with
  | [], _, hpv => simp at hpv
  | g :: G, hG, hpv =>
    refine ⟨g, ?_, ?_⟩
    · rw [hsplit, hg, List.getElem?_append_right (by omega), hF]
      simp
    · have hge : key pv ≤ key g := by
        have : g ∈ s.filter (fun a => key pv ≤ key a) := by rw [hg]; simp
        simpa using (List.mem_filter.1 this).2
      have hle : key g ≤ key pv := by
        rcases List.mem_cons.1 hpv with h | h
        · rw [h]
        · exact (List.pairwise_cons.1 hG).1 pv h
      omega

theorem partition_range_full (key : α → Int) (arr : List α) (lg : List Int) (low high : Int)
    (hl : 0 ≤ low) (hlh : low ≤ high) (hh : high < arr.length) :
    ∃ (p : Int) (out lows highs : List α) (pv : α) (lg' : List Int),
      partition key ⟨arr, lg⟩ low high = some (p, ⟨out, lg'⟩) ∧
      arr[high.toNat]? = some pv ∧ p = low + lows.length ∧
      high = low + lows.length + highs.length ∧ out.length = arr.length ∧
      (∀ i : Nat, ((i : Int) < low ∨ high < (i : Int)) → out[i]? = arr[i]?) ∧
      out[p.toNat]? = some pv ∧ slice out low (p - 1) = lows ∧ slice out (p + 1) high = highs ∧
      slice out low high = lows ++ pv :: highs ∧
      (∀ a ∈ lows, key a < key pv) ∧ (∀ b ∈ highs, key pv ≤ key b) ∧
      (lows ++ pv :: highs).Perm (slice arr low high) ∧ LogExt low high lg lg' := by
  obtain ⟨pre, seg, post, rfl, hl1, hr1⟩ := split_range arr low high hl (by omega) hh
  rcases List.eq_nil_or_concat seg with h0 | ⟨body, pv, h0⟩
  · subst h0
    simp only [List.length_nil, Nat.cast_zero] at hr1
    omega
  · rw [List.concat_eq_append] at h0
    subst h0
    have hr2 := hr1
    simp only [List.length_append, List.length_singleton, Nat.cast_add, Nat.cast_one] at hr2
    obtain ⟨lows, highs, lg1, p, e1, hp, hA, hB, hperm, hlog⟩ :=
      partition_at key pre body post pv lg low high hl1 (by omega)
    have hlen : lows.length + (highs.length + 1) = body.length + 1 := by
      have := hperm.length_eq; simpa using this
    have hlen2 : (lows ++ pv :: highs).length = (body ++ [pv]).length := hperm.length_eq
    refine ⟨p, _, lows, highs, pv, lg1, e1, ?_, hp, by omega, ?_, ?_, ?_, ?_, ?_, ?_, hA, hB,
      ?_, hlog⟩
    · have hc : pre ++ (body ++ [pv]) ++ post = (pre ++ body) ++ pv :: post := by simp
      rw [hc, List.getElem?_append_right (by simp; omega)]
      have : high.toNat - (pre ++ body).length = 0 := by simp; omega
      rw [this]; simp
    · simp only [List.length_append, List.length_cons, List.length_singleton,
        List.length_nil]
      omega
    · intro i hi
      exact frame_get pre (body ++ [pv]) (lows ++ pv :: highs) post hlen2 i
        (by simp; omega)
    · have hc : pre ++ (lows ++ pv :: highs) ++ post = (pre ++ lows) ++ pv :: (highs ++ post) := by
        simp
      rw [hc, List.getElem?_append_right (by simp; omega)]
      have : p.toNat - (pre ++ lows).length = 0 := by simp; omega
      rw [this]; simp
    · have := slice_at pre lows (pv :: highs ++ post) low (p - 1) hl1 (by omega)
      simpa using this
    · have := slice_at (pre ++ lows ++ [pv]) highs post (p + 1) high (by simp; omega)
        (by omega)
      simpa using this
    · exact slice_at pre (lows ++ pv :: highs) post low high hl1 (by rw [hlen2]; omega)
    · rw [slice_at pre (body ++ [pv]) post low high hl1 hr1]
      exact hperm

theorem bubble_passes_succ (key : α → Int) (n : Int) (i : Nat) (m : Mem α) :
    bubble_passes key n (i + 1) m = (bubble_passes key n i m).bind (bubble_pass key n i) := by
  simp only [bubble_passes, List.range_succ, List.foldlM_append]
  simp [bind]

theorem bubble_pass_at (key : α → Int) (n i : Int) (x : α) (ys fin : List α)
    (lg : List Int) (hlen : ((x :: ys).length : Int) = n - i) :
    ∃ init mx lg', bubble_pass key n i ⟨x :: ys ++ fin, lg⟩ = some ⟨init ++ [mx] ++ fin, lg'⟩ ∧
      (init ++ [mx]).Perm (x :: ys) ∧ (∀ a ∈ x :: ys, key a ≤ key mx) ∧
      (∀ k, withKey key k (init ++ [mx]) = withKey key k (x :: ys)) ∧
      LogExt 0 (n - i - 1) lg lg' := by
  simp only [List.length_cons, Nat.cast_add, Nat.cast_one] at hlen
  obtain ⟨lg1, h1, hl1⟩ := bubble_inner_at key n i (n - i - 1).toNat ys [] fin x lg 0
    rfl (by omega) (by omega)
  obtain ⟨init, mx, e, hmx, _⟩ := bubbleUp_last key x ys
  have hperm := bubbleUp_perm key x ys
  have hk := bubbleUp_withKey key
  rw [e] at hperm h1
  refine ⟨init, mx, lg1, ?_, hperm, ?_, ?_, hl1⟩
  · simpa [bubble_pass] using h1
  · intro a ha
    have : a ∈ init ++ [mx] := hperm.symm.subset ha
    rcases List.mem_append.1 this with h | h
    · exact hmx a h
    · simp at h; rw [h]
  · intro k
    rw [← e]
    exact hk k x ys

theorem bubble_passes_at (key : α → Int) (arr : List α) (lg : List Int) (i : Nat) :
    (i : Int) ≤ (arr.length : Int) - 1 →
    ∃ seg fin lg', bubble_passes key arr.length i ⟨arr, lg⟩ = some ⟨seg ++ fin, lg'⟩ ∧
      fin.length = i ∧ seg.length + i = arr.length ∧ SortedBy key fin ∧
      (∀ a ∈ seg, ∀ b ∈ fin, key a ≤ key b) ∧ (seg ++ fin).Perm arr ∧
      (∀ k, withKey key k (seg ++ fin) = withKey key k arr) ∧
      LogExt 0 ((arr.length : Int) - 1) lg lg' := by
  induction i with
  | zero =>
    intro _
    exact ⟨arr, [], lg, by simp [bubble_passes], rfl, by simp, List.Pairwise.nil, by simp,
      by simp, fun _ => by simp, LogExt.refl _ _ _⟩
  | succ i ih =>
    intro hi
    obtain ⟨seg, fin, lg1, e, hfin, hseg, hs, hc, hp, hk, hlog⟩ := ih (by push_cast at hi; omega)
    rcases seg with _ | ⟨x, ys⟩
    · simp only [List.length_nil, zero_add] at hseg
      push_cast at hi
      omega
    · obtain ⟨init, mx, lg2, e2, hperm, hmax, hk2, hlog2⟩ := bubble_pass_at key arr.length i
        x ys fin lg1 (by simp only [List.length_cons] at hseg ⊢; omega)
      have hlen := hperm.length_eq
      simp only [List.length_append, List.length_singleton, List.length_cons, List.length_nil,
        zero_add] at hlen hseg
      refine ⟨init, mx :: fin, lg2, ?_, by simp [hfin], ?_, ?_, ?_, ?_, ?_, ?_⟩
      · rw [bubble_passes_succ, e]
        simpa using e2
      · omega
      · exact List.pairwise_cons.2 ⟨fun b hb => hc mx (hperm.subset (by simp)) b hb, hs⟩
      · intro a ha b hb
        rcases List.mem_cons.1 hb with rfl | hb
        · exact hmax a (hperm.subset (by simp [ha]))
        · exact hc a (hperm.subset (by simp [ha])) b hb
      · have : init ++ mx :: fin = (init ++ [mx]) ++ fin := by simp
        rw [this]
        exact (hperm.append_right fin).trans hp
      · intro k
        have : init ++ mx :: fin = (init ++ [mx]) ++ fin := by simp
        rw [this, withKey_append, hk2 k, ← withKey_append]
        exact hk k
      · exact hlog.trans (hlog2.mono (le_refl _) (by omega))

theorem bubble_sort_eq_passes_bind (key : α → Int) (n : Int) (i : Nat) (m : Mem α)
    (hi : (i : Int) ≤ n - 1) :
    bubble_sort key m n =
      (bubble_passes key n i m).bind (bubble_outer key n (n - 1 - i).toNat i) := by
  have h1 := bubble_outer_eq_fold key n (n - 1).toNat 0 m (by omega)
  have hsplit : (n - 1).toNat = i + (n - 1 - i).toNat := by omega
  rw [bubble_sort, h1, hsplit, List.range_add, List.foldlM_append]
  simp only [List.foldlM_map, bubble_passes, bind, zero_add]
  congr 1
  funext m1
  rw [bubble_outer_eq_fold key n (n - 1 - i).toNat i m1 rfl]
  congr 1

theorem bubble_pass_moves_max (key : α → Int) (arr : List α) (lg : List Int) (j : Nat)
    (hj : (j : Int) < (arr.length : Int) - 1) :
    ∃ sp lgp sn lgn mx, bubble_passes key arr.length j ⟨arr, lg⟩ = some ⟨sp, lgp⟩ ∧
      bubble_passes key arr.length (j + 1) ⟨arr, lg⟩ = some ⟨sn, lgn⟩ ∧
      sn[arr.length - j - 1]? = some mx ∧ mx ∈ sp.take (arr.length - j) ∧
      (∀ a ∈ sp.take (arr.length - j), key a ≤ key mx) ∧
      (sn.take (arr.length - j)).Perm (sp.take (arr.length - j)) ∧
      sn.drop (arr.length - j) = sp.drop (arr.length - j) := by
  obtain ⟨seg, fin, lg1, e, hfin, hseg, _, _, _, _, _⟩ :=
    bubble_passes_at key arr lg j (by omega)
  rcases seg with _ | ⟨x, ys⟩
  · simp only [List.length_nil, zero_add] at hseg
    omega
  · obtain ⟨init, mx, lg2, e2, hperm, hmax, _, _⟩ := bubble_pass_at key arr.length j
      x ys fin lg1 (by simp only [List.length_cons] at hseg ⊢; omega)
    have hlen := hperm.length_eq
    simp only [List.length_append, List.length_singleton, List.length_cons, List.length_nil,
      zero_add] at hlen hseg
    have hn : arr.length - j = (x :: ys).length := by simp only [List.length_cons]; omega
    have hn2 : arr.length - j = (init ++ [mx]).length := by
      simp only [List.length_append, List.length_singleton]; omega
    refine ⟨x :: ys ++ fin, lg1, init ++ [mx] ++ fin, lg2, mx, e, ?_, ?_, ?_, ?_, ?_, ?_⟩
    · rw [bubble_passes_succ, e]
      simpa using e2
    · have hidx : arr.length - j - 1 = init.length := by omega
      rw [hidx, List.append_assoc, List.getElem?_append_right (le_refl _)]
      simp
    · rw [hn, List.take_left]
      exact hperm.subset (by simp)
    · rw [hn, List.take_left]
      exact hmax
    · rw [hn2, List.take_left, ← hn2, hn, List.take_left]
      exact hperm
    · rw [hn2, List.drop_left, ← hn2, hn, List.drop_left]

theorem merge_sort_fuel_step (key : α → Int) (fuel : Nat) (m : Mem α) (l r : Int) :
    merge_sort_fuel key (fuel + 1) m l r =
      if l < r then
        (merge_sort_fuel key fuel m l (midpoint l r)).bind fun m1 =>
          (merge_sort_fuel key fuel m1 (midpoint l r + 1) r).bind fun m2 =>
            merge key m2 l (midpoint l r) r
      else some m := rfl

theorem merge_buffers (key : α → Int) (m : Mem α) (l mid r : Int) :
    merge key m l mid r =
      (merge_fill l (merge_n1 l mid) (merge_n1 l mid).toNat 0 m (malloc (merge_n1 l mid))).bind
        fun mL =>
        (merge_fill (mid + 1) (merge_n2 mid r) (merge_n2 mid r).toNat 0 mL.1
            (malloc (merge_n2 mid r))).bind fun mR =>
          (merge_main key mL.2 mR.2 (merge_n1 l mid) (merge_n2 mid r)
              (merge_n1 l mid + merge_n2 mid r).toNat 0 0 l mR.1).bind fun s =>
            (merge_drain mL.2 (merge_n1 l mid) (merge_n1 l mid).toNat s.1 s.2.2.1 s.2.2.2).bind
              fun t =>
              (merge_drain mR.2 (merge_n2 mid r) (merge_n2 mid r).toNat s.2.1 t.2.1 t.2.2).bind
                fun u => some u.2.2 := rfl

theorem wrap32_of_inInt (x : Int) (h : inInt x) : wrap32 x = x := by
  unfold inInt INT_MIN INT_MAX at h
  unfold wrap32
  omega

theorem generate_loop_at (rand : Nat → Int) (n : Int) (rest : List Int) :
    ∀ (fuel : Nat) (dn : List Int) (lg : List Int) (i : Int) (calls : Nat), i = dn.length →
      n = i + rest.length → rest.length ≤ fuel →
      ∃ lg', generate_loop rand n fuel i calls ⟨dn ++ rest, lg⟩ =
        some (calls + rest.length,
          ⟨dn ++ (List.range rest.length).map (fun t => rand (calls + t)), lg'⟩) := by
  induction rest with
  | nil =>
    intro fuel dn lg i calls _ hn _
    have hlt : ¬ i < n := by simp at hn; omega
    refine ⟨lg, ?_⟩
    cases fuel <;> simp [generate_loop, hlt]
  | cons y rest ih =>
    intro fuel dn lg i calls hi hn hf
    simp only [List.length_cons, Nat.cast_add, Nat.cast_one] at hn
    have hlt : i < n := by omega
    cases fuel with
    | zero => simp at hf
    | succ fuel =>
      have hw := write_at (c := dn ++ y :: rest) (p := dn) (q := rest) (x := y) lg (i := i)
        (rand calls) rfl hi
      obtain ⟨lg2, e⟩ := ih fuel (dn ++ [rand calls]) (i :: lg) (i + 1) (calls + 1)
        (by simp [hi]) (by omega) (by simpa using hf)
      refine ⟨lg2, ?_⟩
      rw [generate_loop, if_pos hlt]
      simp only [Option.bind_eq_bind, hw, Option.some_bind]
      simp only [List.append_assoc, List.singleton_append] at e
      have h1 : calls + (y :: rest).length = calls + 1 + rest.length := by
        simp only [List.length_cons]; omega
      have h2 : (List.range (y :: rest).length).map (fun t => rand (calls + t)) =
          rand calls :: (List.range rest.length).map (fun t => rand (calls + 1 + t)) := by
        rw [List.length_cons, List.range_succ_eq_map, List.map_cons, List.map_map]
        refine congrArg₂ List.cons rfl (List.map_congr_left ?_)
        intro t _
        simp only [Function.comp]
        congr 1
        omega
      rw [e, h1, h2]

theorem copy_array_full (src dst : List Int) (ls ld : List Int) (h : dst.length = src.length) :
    ∃ ls' ld', copy_array ⟨src, ls⟩ ⟨dst, ld⟩ src.length = some (⟨src, ls'⟩, ⟨src, ld'⟩) := by
  obtain ⟨ls1, ld1, e, _, _⟩ := copy_array_spec src dst ls ld src.length (by omega)
    (le_refl _) (by omega)
  have h1 : ((src.length : Int)).toNat = src.length := by omega
  rw [h1, List.take_length, ← h, List.drop_length, List.append_nil, h] at e
  exact ⟨ls1, ld1, e⟩

theorem main_run_spec (k : Nat) (rand junk1 junk2 : Nat → Int) :
    ∃ (o1 o2 o3 : List Int) (a1 a2 a3 b1 b2 b3 c1 c2 c3 : List Int),
      main_run k rand junk1 junk2 = some
        ⟨(⟨(List.range k).map rand, a1⟩, ⟨(List.range k).map rand, b1⟩),
         (⟨(List.range k).map rand, a1⟩, ⟨o1, c1⟩),
         (⟨(List.range k).map rand, a2⟩, ⟨(List.range k).map rand, b2⟩),
         (⟨(List.range k).map rand, a2⟩, ⟨o2, c2⟩),
         (⟨(List.range k).map rand, a3⟩, ⟨(List.range k).map rand, b3⟩),
         (⟨(List.range k).map rand, a3⟩, ⟨o3, c3⟩)⟩ ∧
      List.Sorted (· ≤ ·) o1 ∧ o1.Perm ((List.range k).map rand) ∧
      List.Sorted (· ≤ ·) o2 ∧ o2.Perm ((List.range k).map rand) ∧
      List.Sorted (· ≤ ·) o3 ∧ o3.Perm ((List.range k).map rand) := by
  have hgl : ((List.range k).map rand).length = k := by simp
  have hk : ((k : Int)).toNat = k := by omega
  obtain ⟨a0, eg⟩ := generate_loop_at rand k ((List.range k).map junk1) k [] [] 0 0 rfl
    (by simp) (by simp)
  simp only [List.nil_append, List.length_map, List.length_range, zero_add] at eg
  obtain ⟨a1, b1, ec1⟩ := copy_array_full ((List.range k).map rand) ((List.range k).map junk2)
    a0 [] (by simp)
  obtain ⟨o1, c1, es1, hs1, hp1, _, _⟩ := bubble_sort_whole id ((List.range k).map rand) b1
  obtain ⟨a2, b2, ec2⟩ := copy_array_full ((List.range k).map rand) o1 a1 c1 hp1.length_eq
  obtain ⟨o2, c2, es2, hs2, hp2, _, _⟩ := merge_sort_whole id ((List.range k).map rand) b2
  obtain ⟨a3, b3, ec3⟩ := copy_array_full ((List.range k).map rand) o2 a2 c2 hp2.length_eq
  obtain ⟨o3, c3, es3, hs3, hp3, _⟩ := quick_sort_whole id ((List.range k).map rand) b3
  rw [hgl] at ec1 es1 ec2 es2 ec3 es3
  refine ⟨o1, o2, o3, a1, a2, a3, b1, b2, b3, c1, c2, c3, ?_,
    (sortedBy_id _).1 hs1, hp1, (sortedBy_id _).1 hs2, hp2, (sortedBy_id _).1 hs3, hp3⟩
  unfold main_run
  simp only [alloc_ints, hk, Option.bind_eq_bind, eg, Option.some_bind, ec1, es1, ec2, es2,
    ec3, es3]

theorem add32_eq (a b : Int) (h : inInt (a + b)) : add32 a b = a + b :=
  wrap32_of_inInt _ h

theorem sub32_eq (a b : Int) (h : inInt (a - b)) : sub32 a b = a - b :=
  wrap32_of_inInt _ h

theorem inInt_iff (x : Int) : inInt x ↔ -2147483648 ≤ x ∧ x ≤ 2147483647 := Iff.rfl

theorem bubble_step32_eq (key : α → Int) (j : Int) (m : Mem α) (h : inInt (j + 1)) :
    bubble_step32 key j m = bubble_step key j m := by
  unfold bubble_step32 bubble_step
  rw [add32_eq j 1 h]

theorem bubble_inner32_eq (key : α → Int) (n i : Int) (h1 : inInt (n - i))
    (h2 : inInt (n - i - 1)) (fuel : Nat) :
    ∀ (j : Int) (m : Mem α), INT_MIN ≤ j →
      bubble_inner32 key n i fuel j m = bubble_inner key n i fuel j m := by
  have hb : sub32 (sub32 n i) 1 = n - i - 1 := by
    rw [sub32_eq n i h1, sub32_eq _ 1 h2]
  induction fuel with
  | zero =>
    intro j m _
    simp only [bubble_inner32, bubble_inner, hb]
  | succ fuel ih =>
    intro j m hj
    rw [bubble_inner32, bubble_inner, hb]
    by_cases hlt : j < n - i - 1
    · have hj1 : inInt (j + 1) := by
        rw [inInt_iff] at h2 ⊢
        unfold INT_MIN at hj
        omega
      rw [if_pos hlt, if_pos hlt, bubble_step32_eq key j m hj1, add32_eq j 1 hj1]
      have ih1 : ∀ m1, bubble_inner32 key n i fuel (j + 1) m1 =
          bubble_inner key n i fuel (j + 1) m1 :=
        fun m1 => ih (j + 1) m1 (by omega)
      simp only [ih1]
    · rw [if_neg hlt, if_neg hlt]

theorem bubble_pass32_eq (key : α → Int) (n i : Int) (m : Mem α) (h1 : inInt (n - i))
    (h2 : inInt (n - i - 1)) : bubble_pass32 key n i m = bubble_pass key n i m := by
  unfold bubble_pass32 bubble_pass
  rw [sub32_eq n i h1, sub32_eq _ 1 h2]
  exact bubble_inner32_eq key n i h1 h2 _ 0 m (by unfold INT_MIN; omega)

theorem bubble_outer32_eq (key : α → Int) (n : Int) (h1 : inInt n) (h2 : inInt (n - 1))
    (fuel : Nat) :
    ∀ (i : Int) (m : Mem α), 0 ≤ i →
      bubble_outer32 key n fuel i m = bubble_outer key n fuel i m := by
  have hb : sub32 n 1 = n - 1 := sub32_eq n 1 h2
  induction fuel with
  | zero =>
    intro i m _
    simp only [bubble_outer32, bubble_outer, hb]
  | succ fuel ih =>
    intro i m hi
    rw [bubble_outer32, bubble_outer, hb]
    by_cases hlt : i < n - 1
    · have hi1 : inInt (i + 1) := by rw [inInt_iff] at h2 ⊢; omega
      have hp1 : inInt (n - i) := by rw [inInt_iff] at h1 ⊢; omega
      have hp2 : inInt (n - i - 1) := by rw [inInt_iff] at h1 ⊢; omega
      rw [if_pos hlt, if_pos hlt, bubble_pass32_eq key n i m hp1 hp2, add32_eq i 1 hi1]
      have ih1 : ∀ m1, bubble_outer32 key n fuel (i + 1) m1 =
          bubble_outer key n fuel (i + 1) m1 :=
        fun m1 => ih (i + 1) m1 (by omega)
      simp only [ih1]
    · rw [if_neg hlt, if_neg hlt]

theorem bubble_sort32_eq (key : α → Int) (m : Mem α) (n : Int) (h1 : INT_MIN < n)
    (h2 : n ≤ INT_MAX) : bubble_sort32 key m n = bubble_sort key m n := by
  have hn : inInt n := by rw [inInt_iff]; unfold INT_MIN INT_MAX at *; omega
  have hn1 : inInt (n - 1) := by rw [inInt_iff]; unfold INT_MIN INT_MAX at *; omega
  unfold bubble_sort32 bubble_sort
  rw [sub32_eq n 1 hn1]
  exact bubble_outer32_eq key n hn hn1 _ 0 m (le_refl _)


theorem partition_loop32_eq (key : α → Int) (pivot : α) (high : Int) (hh : inInt high)
    (fuel : Nat) :
    ∀ (i j : Int) (m : Mem α), INT_MIN ≤ i → i < j →
      partition_loop32 key pivot high fuel i j m = partition_loop key pivot high fuel i j m := by
  induction fuel with
  | zero =>
    intro i j m _ _
    simp only [partition_loop32, partition_loop]
  | succ fuel ih =>
    intro i j m hi hij
    rw [partition_loop32, partition_loop]
    by_cases hlt : j < high
    · have hi1 : inInt (i + 1) := by
        rw [inInt_iff] at hh ⊢
        unfold INT_MIN at hi
        omega
      have hj1 : inInt (j + 1) := by
        rw [inInt_iff] at hh ⊢
        unfold INT_MIN at hi
        omega
      rw [if_pos hlt, if_pos hlt, add32_eq i 1 hi1, add32_eq j 1 hj1]
      have ih1 : ∀ m1, partition_loop32 key pivot high fuel (i + 1) (j + 1) m1 =
          partition_loop key pivot high fuel (i + 1) (j + 1) m1 :=
        fun m1 => ih (i + 1) (j + 1) m1 (by omega) (by omega)
      have ih2 : ∀ m1, partition_loop32 key pivot high fuel i (j + 1) m1 =
          partition_loop key pivot high fuel i (j + 1) m1 :=
        fun m1 => ih i (j + 1) m1 hi (by omega)
      simp only [ih1, ih2]
    · rw [if_neg hlt, if_neg hlt]

theorem partition_loop_bounds (key : α → Int) (pivot : α) (high : Int) (fuel : Nat) :
    ∀ (i j : Int) (m : Mem α) (i' : Int) (m' : Mem α),
      partition_loop key pivot high fuel i j m = some (i', m') → j ≤ high →
      i ≤ i' ∧ i' - i ≤ high - j := by
  induction fuel with
  | zero =>
    intro i j m i' m' h hj
    by_cases hlt : j < high
    · simp [partition_loop, hlt] at h
    · simp only [partition_loop, hlt, if_false, Option.some.injEq, Prod.mk.injEq] at h
      omega
  | succ fuel ih =>
    intro i j m i' m' h hj
    by_cases hlt : j < high
    · rw [partition_loop, if_pos hlt] at h
      simp only [Option.bind_eq_bind, Option.bind_eq_some] at h
      obtain ⟨⟨x, m1⟩, _, h⟩ := h
      by_cases hx : key x < key pivot
      · simp only [hx, if_true, Option.bind_eq_some] at h
        obtain ⟨_, _, _, _, _, _, _, _, h⟩ := h
        have := ih _ _ _ _ _ h (by omega)
        omega
      · simp only [hx, if_false] at h
        have := ih _ _ _ _ _ h (by omega)
        omega
    · simp only [partition_loop, hlt, if_false, Option.some.injEq, Prod.mk.injEq] at h
      omega

theorem partition_bounds (key : α → Int) (m : Mem α) (low high : Int) (p : Int) (m' : Mem α)
    (h : partition key m low high = some (p, m')) (hlh : low ≤ high) :
    low ≤ p ∧ p ≤ high := by
  unfold partition at h
  simp only [Option.bind_eq_bind, Option.bind_eq_some] at h
  obtain ⟨⟨pv, m1⟩, _, ⟨i1, m2⟩, hloop, _, _, _, _, _, _, _, _, h⟩ := h
  have hb := partition_loop_bounds key pv high _ _ _ _ _ _ hloop hlh
  simp only [Option.some.injEq, Prod.mk.injEq] at h
  omega

theorem partition32_eq (key : α → Int) (m : Mem α) (low high : Int) (h1 : INT_MIN < low)
    (h2 : low ≤ high) (h3 : high ≤ INT_MAX) :
    partition32 key m low high = partition key m low high := by
  have hh : inInt high := by rw [inInt_iff]; unfold INT_MIN INT_MAX at *; omega
  have hl1 : inInt (low - 1) := by rw [inInt_iff]; unfold INT_MIN INT_MAX at *; omega
  have hloop : ∀ pv m1, partition_loop32 key pv high (high - low).toNat (low - 1) low m1 =
      partition_loop key pv high (high - low).toNat (low - 1) low m1 :=
    fun pv m1 => partition_loop32_eq key pv high hh _ _ _ m1 (by unfold INT_MIN at *; omega)
      (by omega)
  cases hr : m.read high with
  | none => simp [partition32, partition, hr]
  | some pm =>
    obtain ⟨pv, m1⟩ := pm
    cases hq : partition_loop key pv high (high - low).toNat (low - 1) low m1 with
    | none => simp [partition32, partition, hr, sub32_eq low 1 hl1, hloop, hq]
    | some im =>
      obtain ⟨i1, m2⟩ := im
      have hb := partition_loop_bounds key pv high _ _ _ _ _ _ hq h2
      have hi1 : inInt (i1 + 1) := by rw [inInt_iff]; unfold INT_MIN INT_MAX at *; omega
      simp [partition32, partition, hr, sub32_eq low 1 hl1, hloop, hq, add32_eq i1 1 hi1]

theorem quick_sort32_fuel_eq (key : α → Int) (fuel : Nat) :
    ∀ (m : Mem α) (low high : Int), INT_MIN < low → high < INT_MAX →
      quick_sort32_fuel key fuel m low high = quick_sort_fuel key fuel m low high := by
  induction fuel with
  | zero =>
    intro m low high _ _
    simp only [quick_sort32_fuel, quick_sort_fuel]
  | succ fuel ih =>
    intro m low high hl hh
    rw [quick_sort32_fuel, quick_sort_fuel]
    by_cases hlt : low < high
    · rw [if_pos hlt, if_pos hlt, partition32_eq key m low high hl (by omega) (by omega)]
      cases hp : partition key m low high with
      | none => simp
      | some pm =>
        obtain ⟨p, m1⟩ := pm
        have hb := partition_bounds key m low high p m1 hp (by omega)
        have hp1 : inInt (p - 1) := by rw [inInt_iff]; unfold INT_MIN INT_MAX at *; omega
        have hp2 : inInt (p + 1) := by rw [inInt_iff]; unfold INT_MIN INT_MAX at *; omega
        have ihL : ∀ m2, quick_sort32_fuel key fuel m2 low (p - 1) =
            quick_sort_fuel key fuel m2 low (p - 1) :=
          fun m2 => ih m2 low (p - 1) hl (by omega)
        have ihR : ∀ m2, quick_sort32_fuel key fuel m2 (p + 1) high =
            quick_sort_fuel key fuel m2 (p + 1) high :=
          fun m2 => ih m2 (p + 1) high (by omega) hh
        simp only [Option.bind_eq_bind, Option.some_bind, sub32_eq p 1 hp1, add32_eq p 1 hp2,
          ihL, ihR]
    · rw [if_neg hlt, if_neg hlt]

theorem quick_sort32_eq (key : α → Int) (m : Mem α) (low high : Int) (h1 : INT_MIN < low)
    (h2 : high < INT_MAX) : quick_sort32 key m low high = quick_sort key m low high :=
  quick_sort32_fuel_eq key _ m low high h1 h2

theorem quick_sort32_fuel_overflow (key : α → Int) (fuel : Nat) (m : Mem α) :
    add32 INT_MAX 1 = INT_MIN ∧
    quick_sort32_fuel key (fuel + 1) m (add32 INT_MAX 1) INT_MAX = none := by
  have h1 : add32 INT_MAX 1 = INT_MIN := by decide
  have h2 : sub32 INT_MIN 1 = INT_MAX := by decide
  have hlt : INT_MIN < INT_MAX := by decide
  have hf : (INT_MAX - INT_MIN).toNat = 4294967294 + 1 := by decide
  have hneg : ¬ (0 : Int) ≤ INT_MIN := by decide
  refine ⟨h1, ?_⟩
  rw [h1, quick_sort32_fuel, if_pos hlt]
  have hp : partition32 key m INT_MIN INT_MAX = none := by
    unfold partition32
    cases hr : m.read INT_MAX with
    | none => rfl
    | some pm =>
      obtain ⟨pv, m1⟩ := pm
      have hread : m1.read INT_MIN = none := by
        unfold Mem.read
        rw [if_neg hneg]
      simp only [Option.bind_eq_bind, Option.some_bind, h2]
      rw [hf, partition_loop32, if_pos hlt, hread]
      rfl
  rw [hp]
  rfl

theorem bubble_sort32_whole (key : α → Int) (arr : List α) (lg : List Int)
    (hlen : (arr.length : Int) ≤ INT_MAX) :
    ∃ out lg', bubble_sort32 key ⟨arr, lg⟩ arr.length = some ⟨out, lg'⟩ ∧
      SortedBy key out ∧ out.Perm arr ∧ (∀ k, withKey key k out = withKey key k arr) := by
  obtain ⟨out, lg1, e, hs, hp, hk, _⟩ := bubble_sort_whole key arr lg
  rw [← bubble_sort32_eq key _ _ (by unfold INT_MIN; omega) hlen] at e
  exact ⟨out, lg1, e, hs, hp, hk⟩

theorem quick_sort32_whole (key : α → Int) (arr : List α) (lg : List Int)
    (hlen : (arr.length : Int) ≤ INT_MAX) :
    ∃ out lg', quick_sort32 key ⟨arr, lg⟩ 0 ((arr.length : Int) - 1) = some ⟨out, lg'⟩ ∧
      SortedBy key out ∧ out.Perm arr := by
  obtain ⟨out, lg1, e, hs, hp, _⟩ := quick_sort_whole key arr lg
  rw [← quick_sort32_eq key _ 0 _ (by unfold INT_MIN; omega) (by omega)] at e
  exact ⟨out, lg1, e, hs, hp⟩

/-! ## The claims -/

/-- C1: for every integer array `arr`, of any length `n ≥ 0`, the call `bubble_sort(arr, n)`
returns, and the resulting array is sorted in non-decreasing order and is a permutation of
the input array. -/
theorem bubble_sort_sorted_perm (arr : List Int) (lg : List Int) :
    ∃ out lg', bubble_sort id ⟨arr, lg⟩ arr.length = some ⟨out, lg'⟩ ∧
      List.Sorted (· ≤ ·) out ∧ out.Perm arr := by
  obtain ⟨out, lg1, e, hs, hp, _, _⟩ := bubble_sort_whole id arr lg
  exact ⟨out, lg1, e, (sortedBy_id out).1 hs, hp⟩

/-- C2: for every integer array and all indices `0 ≤ l ≤ r < n`, the call
`merge_sort(arr, l, r)` returns, and afterwards the subrange `arr[l..r]` is sorted in
non-decreasing order and is a permutation of the original contents of that subrange; and
`merge_sort(arr, 0, n - 1)` sorts the whole array for every `n ≥ 0`. -/
theorem merge_sort_sorted_perm (arr : List Int) (lg : List Int) :
    (∀ l r : Int, 0 ≤ l → l ≤ r → r < arr.length →
      ∃ out lg', merge_sort id ⟨arr, lg⟩ l r = some ⟨out, lg'⟩ ∧
        List.Sorted (· ≤ ·) (slice out l r) ∧ (slice out l r).Perm (slice arr l r)) ∧
    (∃ out lg', merge_sort id ⟨arr, lg⟩ 0 ((arr.length : Int) - 1) = some ⟨out, lg'⟩ ∧
      List.Sorted (· ≤ ·) out ∧ out.Perm arr) := by
  constructor
  · intro l r hl _ hr
    obtain ⟨out, lg1, e, _, _, hs, hp, _, _⟩ := merge_sort_range id arr lg l r hl hr
    exact ⟨out, lg1, e, (sortedBy_id _).1 hs, hp⟩
  · obtain ⟨out, lg1, e, hs, hp, _, _⟩ := merge_sort_whole id arr lg
    exact ⟨out, lg1, e, (sortedBy_id out).1 hs, hp⟩

theorem merge_sort_sorted_perm_witness :
    (0 : Int) ≤ 1 ∧ (1 : Int) ≤ 3 ∧ (3 : Int) < ([9, 7, 5, 3, 1] : List Int).length ∧
      ∃ out lg', merge_sort id ⟨[9, 7, 5, 3, 1], []⟩ 1 3 = some ⟨out, lg'⟩ ∧
        List.Sorted (· ≤ ·) (slice out 1 3) ∧
        (slice out 1 3).Perm (slice [9, 7, 5, 3, 1] 1 3) :=
  ⟨by decide, by decide, by decide,
    (merge_sort_sorted_perm [9, 7, 5, 3, 1] []).1 1 3 (by decide) (by decide) (by decide)⟩

/-- C4: idempotence.  An integer array that is already sorted in non-decreasing order is
returned element-wise unchanged by `bubble_sort(arr, n)`, by `merge_sort(arr, 0, n - 1)` and
by `quick_sort(arr, 0, n - 1)`; hence, for every array, running any of the three sorts a
second time returns the result of the first run. -/
theorem sort_idempotent (arr : List Int) (lg : List Int) :
    (List.Sorted (· ≤ ·) arr →
      (∃ lg', bubble_sort id ⟨arr, lg⟩ arr.length = some ⟨arr, lg'⟩) ∧
      (∃ lg', merge_sort id ⟨arr, lg⟩ 0 ((arr.length : Int) - 1) = some ⟨arr, lg'⟩) ∧
      (∃ lg', quick_sort id ⟨arr, lg⟩ 0 ((arr.length : Int) - 1) = some ⟨arr, lg'⟩)) ∧
    (∃ out lg1 lg2, bubble_sort id ⟨arr, lg⟩ arr.length = some ⟨out, lg1⟩ ∧
      bubble_sort id ⟨out, lg1⟩ arr.length = some ⟨out, lg2⟩) ∧
    (∃ out lg1 lg2, merge_sort id ⟨arr, lg⟩ 0 ((arr.length : Int) - 1) = some ⟨out, lg1⟩ ∧
      merge_sort id ⟨out, lg1⟩ 0 ((arr.length : Int) - 1) = some ⟨out, lg2⟩) ∧
    (∃ out lg1 lg2, quick_sort id ⟨arr, lg⟩ 0 ((arr.length : Int) - 1) = some ⟨out, lg1⟩ ∧
      quick_sort id ⟨out, lg1⟩ 0 ((arr.length : Int) - 1) = some ⟨out, lg2⟩) := by
  have hb : ∀ (a : List Int) (g : List Int), List.Sorted (· ≤ ·) a →
      ∃ lg', bubble_sort id ⟨a, g⟩ a.length = some ⟨a, lg'⟩ := by
    intro a g ha
    obtain ⟨out, lg1, e, hs, hp, _, _⟩ := bubble_sort_whole id a g
    rw [eq_of_sorted_perm hs ha hp] at e
    exact ⟨lg1, e⟩
  have hm : ∀ (a : List Int) (g : List Int), List.Sorted (· ≤ ·) a →
      ∃ lg', merge_sort id ⟨a, g⟩ 0 ((a.length : Int) - 1) = some ⟨a, lg'⟩ := by
    intro a g ha
    obtain ⟨out, lg1, e, hs, hp, _, _⟩ := merge_sort_whole id a g
    rw [eq_of_sorted_perm hs ha hp] at e
    exact ⟨lg1, e⟩
  have hq : ∀ (a : List Int) (g : List Int), List.Sorted (· ≤ ·) a →
      ∃ lg', quick_sort id ⟨a, g⟩ 0 ((a.length : Int) - 1) = some ⟨a, lg'⟩ := by
    intro a g ha
    obtain ⟨out, lg1, e, hs, hp, _⟩ := quick_sort_whole id a g
    rw [eq_of_sorted_perm hs ha hp] at e
    exact ⟨lg1, e⟩
  refine ⟨fun ha => ⟨hb arr lg ha, hm arr lg ha, hq arr lg ha⟩, ?_, ?_, ?_⟩
  · obtain ⟨out, lg1, e, hs, hp, _, _⟩ := bubble_sort_whole id arr lg
    obtain ⟨lg2, e2⟩ := hb out lg1 ((sortedBy_id out).1 hs)
    rw [hp.length_eq] at e2
    exact ⟨out, lg1, lg2, e, e2⟩
  · obtain ⟨out, lg1, e, hs, hp, _, _⟩ := merge_sort_whole id arr lg
    obtain ⟨lg2, e2⟩ := hm out lg1 ((sortedBy_id out).1 hs)
    rw [hp.length_eq] at e2
    exact ⟨out, lg1, lg2, e, e2⟩
  · obtain ⟨out, lg1, e, hs, hp, _⟩ := quick_sort_whole id arr lg
    obtain ⟨lg2, e2⟩ := hq out lg1 ((sortedBy_id out).1 hs)
    rw [hp.length_eq] at e2
    exact ⟨out, lg1, lg2, e, e2⟩

theorem sort_idempotent_witness :
    List.Sorted (· ≤ ·) ([1, 2, 3, 4, 5] : List Int) ∧
      (∃ lg', bubble_sort id ⟨[1, 2, 3, 4, 5], []⟩ 5 = some ⟨[1, 2, 3, 4, 5], lg'⟩) ∧
      (∃ lg', merge_sort id ⟨[1, 2, 3, 4, 5], []⟩ 0 4 = some ⟨[1, 2, 3, 4, 5], lg'⟩) ∧
      (∃ lg', quick_sort id ⟨[1, 2, 3, 4, 5], []⟩ 0 4 = some ⟨[1, 2, 3, 4, 5], lg'⟩) :=
  ⟨by decide, (sort_idempotent [1, 2, 3, 4, 5] []).1 (by decide)⟩

/-- C5: bubble sort is stable.  Run on records compared only through an integer key,
`bubble_sort(arr, n)` returns an array sorted by key in which, for every key value `k`, the
records with key `k` appear in the same order as in the input (so any two records with
equal keys keep their relative order). -/
theorem bubble_sort_stable (key : α → Int) (arr : List α) (lg : List Int) :
    ∃ out lg', bubble_sort key ⟨arr, lg⟩ arr.length = some ⟨out, lg'⟩ ∧
      SortedBy key out ∧ ∀ k : Int, withKey key k out = withKey key k arr := by
  obtain ⟨out, lg1, e, hs, _, hk, _⟩ := bubble_sort_whole key arr lg
  exact ⟨out, lg1, e, hs, hk⟩

/-- C6: merge sort is stable.  Run on records compared only through an integer key,
`merge_sort(arr, l, r)` on any range with `0 ≤ l` and `r < n` returns an array whose
subrange `[l, r]` is sorted by key and in which, for every key value `k`, the records of the
subrange with key `k` appear in the same order as in the input subrange. -/
theorem merge_sort_stable (key : α → Int) (arr : List α) (lg : List Int) (l r : Int)
    (hl : 0 ≤ l) (hr : r < arr.length) :
    ∃ out lg', merge_sort key ⟨arr, lg⟩ l r = some ⟨out, lg'⟩ ∧
      SortedBy key (slice out l r) ∧
      ∀ k : Int, withKey key k (slice out l r) = withKey key k (slice arr l r) := by
  obtain ⟨out, lg1, e, _, _, hs, _, hk, _⟩ := merge_sort_range key arr lg l r hl hr
  exact ⟨out, lg1, e, hs, hk⟩

theorem merge_sort_stable_witness :
    (0 : Int) ≤ 0 ∧ (3 : Int) < ([(2, 0), (1, 1), (2, 2), (1, 3)] : List (Int × Nat)).length ∧
      ∃ out lg', merge_sort Prod.fst ⟨[((2 : Int), 0), (1, 1), (2, 2), (1, 3)], []⟩ 0 3 =
          some ⟨out, lg'⟩ ∧
        SortedBy Prod.fst (slice out 0 3) ∧
        ∀ k : Int, withKey Prod.fst k (slice out 0 3) =
          withKey Prod.fst k (slice [((2 : Int), 0), (1, 1), (2, 2), (1, 3)] 0 3) :=
  ⟨by decide, by decide,
    merge_sort_stable Prod.fst [((2 : Int), 0), (1, 1), (2, 2), (1, 3)] [] 0 3 (by decide)
      (by decide)⟩

/-- C10: for every source array `src`, destination array `dst` and `n` with
`0 ≤ n ≤ min (len src) (len dst)`, the call `copy_array(src, dst, n)` returns, and afterwards
`dst[i] = src[i]` for every `0 ≤ i < n`, `src` is unchanged, and the elements of `dst` at the
indices `≥ n` are unchanged (the length of `dst` included). -/
theorem copy_array_correct (src dst : List α) (ls ld : List Int) (n : Int) (h0 : 0 ≤ n)
    (hs : n ≤ src.length) (hd : n ≤ dst.length) :
    ∃ src' dst', copy_array ⟨src, ls⟩ ⟨dst, ld⟩ n = some (src', dst') ∧
      src'.cells = src ∧ dst'.cells.length = dst.length ∧
      (∀ i : Nat, (i : Int) < n → dst'.cells[i]? = src[i]?) ∧
      (∀ i : Nat, n ≤ (i : Int) → dst'.cells[i]? = dst[i]?) := by
  obtain ⟨ls1, ld1, e, _, _⟩ := copy_array_spec src dst ls ld n h0 hs hd
  have hlen : (src.take n.toNat).length = n.toNat := by rw [List.length_take]; omega
  refine ⟨_, _, e, rfl, ?_, ?_, ?_⟩
  · simp only [List.length_append, List.length_drop, hlen]; omega
  · intro i hi
    simp only
    rw [List.getElem?_append_left (by omega), List.getElem?_take_of_lt (by omega)]
  · intro i hi
    simp only
    rw [List.getElem?_append_right (by omega), List.getElem?_drop, hlen]
    congr 1
    omega

theorem copy_array_correct_witness :
    (0 : Int) ≤ 2 ∧ (2 : Int) ≤ ([1, 2, 3] : List Int).length ∧
      (2 : Int) ≤ ([7, 8, 9, 10] : List Int).length ∧
      ∃ src' dst', copy_array ⟨([1, 2, 3] : List Int), []⟩ ⟨[7, 8, 9, 10], []⟩ 2 =
          some (src', dst') ∧
        src'.cells = [1, 2, 3] ∧ dst'.cells.length = ([7, 8, 9, 10] : List Int).length ∧
        (∀ i : Nat, (i : Int) < 2 → dst'.cells[i]? = ([1, 2, 3] : List Int)[i]?) ∧
        (∀ i : Nat, (2 : Int) ≤ (i : Int) → dst'.cells[i]? = ([7, 8, 9, 10] : List Int)[i]?) :=
  ⟨by decide, by decide, by decide,
    copy_array_correct [1, 2, 3] [7, 8, 9, 10] [] [] 2 (by decide) (by decide) (by decide)⟩

/-- C11: benchmark input invariant.  With the state of `main` modelled as the pair
`(original, arr)`: `main` runs to completion, at the moment each of the three sorts starts
the working array `arr` is element-wise equal to `original`, and at the start and at the
return of every sort `original` still holds the `N` generated values, so neither
`copy_array` nor a sort modifies it and all three algorithms sort the identical input. -/
theorem main_input_invariant (rand junk1 junk2 : Nat → Int) :
    ∃ tr, main rand junk1 junk2 = some tr ∧
      tr.bubble_start.2.cells = tr.bubble_start.1.cells ∧
      tr.merge_start.2.cells = tr.merge_start.1.cells ∧
      tr.quick_start.2.cells = tr.quick_start.1.cells ∧
      (∀ s ∈ [tr.bubble_start, tr.bubble_end, tr.merge_start, tr.merge_end, tr.quick_start,
          tr.quick_end], s.1.cells = (List.range N.toNat).map rand) ∧
      tr.merge_start.2.cells = tr.bubble_start.2.cells ∧
      tr.quick_start.2.cells = tr.bubble_start.2.cells := by
  obtain ⟨o1, o2, o3, a1, a2, a3, b1, b2, b3, c1, c2, c3, e, _⟩ :=
    main_run_spec 100 rand junk1 junk2
  refine ⟨_, e, rfl, rfl, rfl, ?_, rfl, rfl⟩
  intro s hs
  simp only [List.mem_cons, List.mem_singleton, List.not_mem_nil, or_false] at hs
  rcases hs with h | h | h | h | h | h <;> rw [h] <;> rfl

/-- C12: boundary cases.  For `n = 0` and for `n = 1` each of `bubble_sort(arr, n)`,
`merge_sort(arr, 0, n - 1)` and `quick_sort(arr, 0, n - 1)` returns the memory it was given:
the cells are unchanged and the access log has no new entry, so the array is not indexed at
all (for `n = 0` the recursive sorts are called with right bound `-1`). -/
theorem sort_boundary (key : α → Int) (m : Mem α) :
    bubble_sort key m 0 = some m ∧ bubble_sort key m 1 = some m ∧
    merge_sort key m 0 (-1) = some m ∧ merge_sort key m 0 0 = some m ∧
    quick_sort key m 0 (-1) = some m ∧ quick_sort key m 0 0 = some m := by
  refine ⟨?_, ?_, ?_, ?_, ?_, ?_⟩ <;>
    simp [bubble_sort, bubble_outer, merge_sort, merge_sort_fuel, quick_sort, quick_sort_fuel]

/-- C13: on the input `[5, 3, 8, 1, 9, 2]` each of `bubble_sort(arr, 6)`,
`merge_sort(arr, 0, 5)` and `quick_sort(arr, 0, 5)` produces exactly `[1, 2, 3, 5, 8, 9]`. -/
theorem sort_scenario :
    (bubble_sort id ⟨([5, 3, 8, 1, 9, 2] : List Int), []⟩ 6).map Mem.cells =
      some [1, 2, 3, 5, 8, 9] ∧
    (merge_sort id ⟨([5, 3, 8, 1, 9, 2] : List Int), []⟩ 0 5).map Mem.cells =
      some [1, 2, 3, 5, 8, 9] ∧
    (quick_sort id ⟨([5, 3, 8, 1, 9, 2] : List Int), []⟩ 0 5).map Mem.cells =
      some [1, 2, 3, 5, 8, 9] := by
  refine ⟨?_, ?_, ?_⟩ <;> decide

/-- C14: partition postcondition.  For every array and `0 ≤ low ≤ high < len`,
`partition(arr, low, high)` returns an index `p` with `low ≤ p ≤ high` such that afterwards
`arr[p]` is the original `arr[high]` (the pivot), every element of `arr[low..p-1]` is
strictly less than the pivot, every element of `arr[p+1..high]` is greater than or equal to
the pivot, `arr[low..high]` is a permutation of its original contents, and `p` is the
pivot's index in the sorted range: every sorted arrangement of the range has an element with
the pivot's key (for integers: the pivot) at offset `p - low`. -/
theorem partition_postcondition (key : α → Int) (arr : List α) (lg : List Int)
    (low high : Int) (hl : 0 ≤ low) (hlh : low ≤ high) (hh : high < arr.length) :
    ∃ (p : Int) (out : List α) (lg' : List Int) (pv : α),
      partition key ⟨arr, lg⟩ low high = some (p, ⟨out, lg'⟩) ∧
      low ≤ p ∧ p ≤ high ∧ arr[high.toNat]? = some pv ∧ out[p.toNat]? = some pv ∧
      (∀ a ∈ slice out low (p - 1), key a < key pv) ∧
      (∀ b ∈ slice out (p + 1) high, key pv ≤ key b) ∧
      (slice out low high).Perm (slice arr low high) ∧
      (∀ s : List α, SortedBy key s → s.Perm (slice arr low high) →
        ∃ v, s[(p - low).toNat]? = some v ∧ key v = key pv) := by
  obtain ⟨p, out, lows, highs, pv, lg1, e, hpv, hp, hhigh, _, _, hout, hsl, hsh, hs, hA, hB,
    hperm, _⟩ := partition_range_full key arr lg low high hl hlh hh
  refine ⟨p, out, lg1, pv, e, by omega, by omega, hpv, hout, ?_, ?_, ?_, ?_⟩
  · rw [hsl]; exact hA
  · rw [hsh]; exact hB
  · rw [hs]; exact hperm
  · intro s hsorted hsp
    have := sorted_pivot_index key s lows highs pv hsorted (hsp.trans hperm.symm) hA hB
    have hidx : (p - low).toNat = lows.length := by omega
    rw [hidx]
    exact this

theorem partition_postcondition_witness :
    (0 : Int) ≤ 1 ∧ (1 : Int) ≤ 4 ∧ (4 : Int) < ([9, 5, 1, 7, 4, 0] : List Int).length ∧
      ∃ (p : Int) (out : List Int) (lg' : List Int) (pv : Int),
        partition id ⟨([9, 5, 1, 7, 4, 0] : List Int), []⟩ 1 4 = some (p, ⟨out, lg'⟩) ∧
        1 ≤ p ∧ p ≤ 4 ∧ ([9, 5, 1, 7, 4, 0] : List Int)[(4 : Int).toNat]? = some pv ∧
        out[p.toNat]? = some pv ∧
        (∀ a ∈ slice out 1 (p - 1), id a < id pv) ∧
        (∀ b ∈ slice out (p + 1) 4, id pv ≤ id b) ∧
        (slice out 1 4).Perm (slice ([9, 5, 1, 7, 4, 0] : List Int) 1 4) ∧
        (∀ s : List Int, SortedBy id s → s.Perm (slice ([9, 5, 1, 7, 4, 0] : List Int) 1 4) →
          ∃ v, s[(p - 1).toNat]? = some v ∧ id v = id pv) :=
  ⟨by decide, by decide, by decide,
    partition_postcondition id [9, 5, 1, 7, 4, 0] [] 1 4 (by decide) (by decide) (by decide)⟩

/-- C15: merge postcondition.  For every array and indices `0 ≤ l ≤ m < r < len` such that
`arr[l..m]` and `arr[m+1..r]` are each sorted in non-decreasing order, `merge(arr, l, m, r)`
returns, and afterwards the range `arr[l..r]` is sorted in non-decreasing order and is a
permutation of its original contents; the array keeps its length and its cells outside
`[l, r]`. -/
theorem merge_postcondition (key : α → Int) (arr : List α) (lg : List Int) (l mid r : Int)
    (hl : 0 ≤ l) (hlm : l ≤ mid) (hmr : mid < r) (hr : r < arr.length)
    (hA : SortedBy key (slice arr l mid)) (hB : SortedBy key (slice arr (mid + 1) r)) :
    ∃ out lg', merge key ⟨arr, lg⟩ l mid r = some ⟨out, lg'⟩ ∧
      SortedBy key (slice out l r) ∧ (slice out l r).Perm (slice arr l r) ∧
      out.length = arr.length ∧
      ∀ i : Nat, ((i : Int) < l ∨ r < (i : Int)) → out[i]? = arr[i]? := by
  obtain ⟨out, lg1, e, hlen, hf, hs, hsplit, _⟩ :=
    merge_range_full key arr lg l mid r hl (by omega) (by omega) hr
  refine ⟨out, lg1, e, ?_, ?_, hlen, hf⟩
  · rw [hs]; exact mergeBy_sorted key _ _ hA hB
  · rw [hs, hsplit]; exact mergeBy_perm key _ _

theorem merge_postcondition_witness :
    (0 : Int) ≤ 1 ∧ (1 : Int) ≤ 2 ∧ (2 : Int) < 4 ∧
      (4 : Int) < ([9, 2, 6, 1, 3, 0] : List Int).length ∧
      SortedBy id (slice ([9, 2, 6, 1, 3, 0] : List Int) 1 2) ∧
      SortedBy id (slice ([9, 2, 6, 1, 3, 0] : List Int) (2 + 1) 4) ∧
      ∃ out lg', merge id ⟨([9, 2, 6, 1, 3, 0] : List Int), []⟩ 1 2 4 = some ⟨out, lg'⟩ ∧
        SortedBy id (slice out 1 4) ∧
        (slice out 1 4).Perm (slice ([9, 2, 6, 1, 3, 0] : List Int) 1 4) ∧
        out.length = ([9, 2, 6, 1, 3, 0] : List Int).length ∧
        ∀ i : Nat, ((i : Int) < 1 ∨ 4 < (i : Int)) →
          out[i]? = ([9, 2, 6, 1, 3, 0] : List Int)[i]? :=
  ⟨by decide, by decide, by decide, by decide, by decide, by decide,
    merge_postcondition id [9, 2, 6, 1, 3, 0] [] 1 2 4 (by decide) (by decide) (by decide)
      (by decide) (by decide) (by decide)⟩

/-- C16: bubble sort pass invariant.  For every array of length `n` and every `i` with
`0 ≤ i ≤ n - 1`, after the first `i` outer passes of `bubble_sort` the last `i` elements
`arr[n-i..n-1]` are in their final sorted position: they are sorted in non-decreasing order,
each is `≥` every element of `arr[0..n-i-1]`, and they are the last `i` elements of the
output of `bubble_sort`.  Each of these passes `j` leaves the largest element of the unsorted
prefix `arr[0..n-j-1]` in the last cell of that prefix and permutes the prefix only. -/
theorem bubble_pass_invariant (key : α → Int) (arr : List α) (lg : List Int) (i : Nat)
    (hi : (i : Int) ≤ (arr.length : Int) - 1) :
    (∃ si lgi fo lgf, bubble_passes key arr.length i ⟨arr, lg⟩ = some ⟨si, lgi⟩ ∧
      bubble_sort key ⟨arr, lg⟩ arr.length = some ⟨fo, lgf⟩ ∧
      si.length = arr.length ∧ si.Perm arr ∧
      SortedBy key (si.drop (arr.length - i)) ∧
      (∀ a ∈ si.take (arr.length - i), ∀ b ∈ si.drop (arr.length - i), key a ≤ key b) ∧
      si.drop (arr.length - i) = fo.drop (arr.length - i)) ∧
    (∀ j : Nat, j < i →
      ∃ sp lgp sn lgn mx, bubble_passes key arr.length j ⟨arr, lg⟩ = some ⟨sp, lgp⟩ ∧
        bubble_passes key arr.length (j + 1) ⟨arr, lg⟩ = some ⟨sn, lgn⟩ ∧
        sn[arr.length - j - 1]? = some mx ∧ mx ∈ sp.take (arr.length - j) ∧
        (∀ a ∈ sp.take (arr.length - j), key a ≤ key mx) ∧
        (sn.take (arr.length - j)).Perm (sp.take (arr.length - j)) ∧
        sn.drop (arr.length - j) = sp.drop (arr.length - j)) := by
  constructor
  · obtain ⟨seg, fin, lg1, e, hfin, hseg, hs, hc, hp, _, _⟩ := bubble_passes_at key arr lg i hi
    obtain ⟨out, lg2, e2, _, hpo, _, _⟩ := bubble_outer_at key arr.length
      ((arr.length : Int) - 1 - i).toNat seg [] fin lg1 i (by omega) (by omega) (le_refl _)
      List.Pairwise.nil (by simp)
    have hlo : out.length = seg.length := by simpa using hpo.length_eq
    have hn : arr.length - i = seg.length := by omega
    have hn2 : arr.length - i = out.length := by omega
    refine ⟨seg ++ fin, lg1, out ++ fin, lg2, e, ?_, hp.length_eq, hp, ?_, ?_, ?_⟩
    · rw [bubble_sort_eq_passes_bind key arr.length i _ hi, e]
      simpa using e2
    · rw [hn, List.drop_left]; exact hs
    · rw [hn, List.drop_left, List.take_left]; exact hc
    · rw [hn2, List.drop_left, ← hn2, hn, List.drop_left]
  · intro j hj
    exact bubble_pass_moves_max key arr lg j (by omega)

theorem bubble_pass_invariant_witness :
    ((2 : Nat) : Int) ≤ (([4, 1, 3, 2] : List Int).length : Int) - 1 ∧
    (∃ si lgi fo lgf, bubble_passes id ([4, 1, 3, 2] : List Int).length 2
        ⟨([4, 1, 3, 2] : List Int), []⟩ = some ⟨si, lgi⟩ ∧
      bubble_sort id ⟨([4, 1, 3, 2] : List Int), []⟩ ([4, 1, 3, 2] : List Int).length =
        some ⟨fo, lgf⟩ ∧
      si.length = ([4, 1, 3, 2] : List Int).length ∧ si.Perm [4, 1, 3, 2] ∧
      SortedBy id (si.drop (([4, 1, 3, 2] : List Int).length - 2)) ∧
      (∀ a ∈ si.take (([4, 1, 3, 2] : List Int).length - 2),
        ∀ b ∈ si.drop (([4, 1, 3, 2] : List Int).length - 2), id a ≤ id b) ∧
      si.drop (([4, 1, 3, 2] : List Int).length - 2) =
        fo.drop (([4, 1, 3, 2] : List Int).length - 2)) ∧
    (∃ sp lgp sn lgn mx, bubble_passes id ([4, 1, 3, 2] : List Int).length 1
        ⟨([4, 1, 3, 2] : List Int), []⟩ = some ⟨sp, lgp⟩ ∧
      bubble_passes id ([4, 1, 3, 2] : List Int).length (1 + 1)
        ⟨([4, 1, 3, 2] : List Int), []⟩ = some ⟨sn, lgn⟩ ∧
      sn[([4, 1, 3, 2] : List Int).length - 1 - 1]? = some mx ∧
      mx ∈ sp.take (([4, 1, 3, 2] : List Int).length - 1) ∧
      (∀ a ∈ sp.take (([4, 1, 3, 2] : List Int).length - 1), id a ≤ id mx) ∧
      (sn.take (([4, 1, 3, 2] : List Int).length - 1)).Perm
        (sp.take (([4, 1, 3, 2] : List Int).length - 1)) ∧
      sn.drop (([4, 1, 3, 2] : List Int).length - 1) =
        sp.drop (([4, 1, 3, 2] : List Int).length - 1)) :=
  ⟨by decide, (bubble_pass_invariant id [4, 1, 3, 2] [] 2 (by decide)).1,
    (bubble_pass_invariant id [4, 1, 3, 2] [] 2 (by decide)).2 1 (by decide)⟩

/-- C17: the three algorithms agree on whole arrays.  For every integer array of length
`n ≥ 0`, `bubble_sort(arr, n)`, `merge_sort(arr, 0, n - 1)` and `quick_sort(arr, 0, n - 1)`
all return, with element-wise identical output arrays. -/
theorem sorts_agree (arr : List Int) (lg : List Int) :
    ∃ out lg1 lg2 lg3, bubble_sort id ⟨arr, lg⟩ arr.length = some ⟨out, lg1⟩ ∧
      merge_sort id ⟨arr, lg⟩ 0 ((arr.length : Int) - 1) = some ⟨out, lg2⟩ ∧
      quick_sort id ⟨arr, lg⟩ 0 ((arr.length : Int) - 1) = some ⟨out, lg3⟩ := by
  obtain ⟨ob, lg1, eb, sb, pb, _, _⟩ := bubble_sort_whole id arr lg
  obtain ⟨om, lg2, em, sm, pm, _, _⟩ := merge_sort_whole id arr lg
  obtain ⟨oq, lg3, eq, sq, pq, _⟩ := quick_sort_whole id arr lg
  have h1 : om = ob := eq_of_sorted_perm sm ((sortedBy_id ob).1 sb) (pm.trans pb.symm)
  have h2 : oq = ob := eq_of_sorted_perm sq ((sortedBy_id ob).1 sb) (pq.trans pb.symm)
  rw [h1] at em
  rw [h2] at eq
  exact ⟨ob, lg1, lg2, lg3, eb, em, eq⟩

/-- C18: quick sort is not stable.  On the records with keys `[2, 2, 1, 1]` tagged
`a, b, c, d`, compared through the key only, `quick_sort` returns `1d, 1c, 2a, 2b`: the two
records with key `1` come out in the opposite order, so the records with key `1` are not in
their input order. -/
theorem quick_sort_not_stable :
    (quick_sort Prod.fst ⟨[((2 : Int), 'a'), (2, 'b'), (1, 'c'), (1, 'd')], []⟩ 0 3).map
        Mem.cells = some [(1, 'd'), (1, 'c'), (2, 'a'), (2, 'b')] ∧
    withKey Prod.fst 1 [((1 : Int), 'd'), (1, 'c'), (2, 'a'), (2, 'b')] = [(1, 'd'), (1, 'c')] ∧
    withKey Prod.fst 1 [((2 : Int), 'a'), (2, 'b'), (1, 'c'), (1, 'd')] = [(1, 'c'), (1, 'd')] ∧
    ∃ (arr out : List (Int × Char)) (lg : List Int),
      quick_sort Prod.fst ⟨arr, []⟩ 0 ((arr.length : Int) - 1) = some ⟨out, lg⟩ ∧
      ¬ ∀ k : Int, withKey Prod.fst k out = withKey Prod.fst k arr := by
  refine ⟨by decide, by decide, by decide, ?_⟩
  have h : ∃ m, quick_sort Prod.fst
      ⟨[((2 : Int), 'a'), (2, 'b'), (1, 'c'), (1, 'd')], []⟩ 0 3 = some m ∧
      m.cells = [(1, 'd'), (1, 'c'), (2, 'a'), (2, 'b')] := by decide
  obtain ⟨m, hm, hc⟩ := h
  refine ⟨[((2 : Int), 'a'), (2, 'b'), (1, 'c'), (1, 'd')], m.cells, m.log, hm, ?_⟩
  intro hall
  have := hall 1
  rw [hc] at this
  revert this
  decide

/-- C19: midpoint arithmetic.  For all 32-bit signed integers `0 ≤ l < r ≤ 2^31 - 1`, every
intermediate result of the midpoint `m = l + (r - l) / 2` computed by `merge_sort` is
representable in an `int` (no signed overflow; the 32-bit evaluation gives the mathematical
value), `l ≤ m < r`, and the buffer sizes of `merge` satisfy `n1 = m - l + 1 ≥ 1`,
`n2 = r - m ≥ 1` and `n1 + n2 = r - l + 1`, again without overflow. -/
theorem midpoint_arithmetic (l r : Int) (hl : 0 ≤ l) (hlr : l < r) (hr : r ≤ INT_MAX) :
    inInt (r - l) ∧ inInt (Int.tdiv (r - l) 2) ∧ inInt (midpoint l r) ∧
    midpoint32 l r = midpoint l r ∧
    l ≤ midpoint l r ∧ midpoint l r < r ∧ inInt (midpoint l r + 1) ∧
    inInt (midpoint l r - l) ∧ inInt (merge_n1 l (midpoint l r)) ∧
    inInt (merge_n2 (midpoint l r) r) ∧
    1 ≤ merge_n1 l (midpoint l r) ∧ 1 ≤ merge_n2 (midpoint l r) r ∧
    merge_n1 l (midpoint l r) + merge_n2 (midpoint l r) r = r - l + 1 := by
  have hd : Int.tdiv (r - l) 2 = (r - l) / 2 := Int.tdiv_eq_ediv (by omega) (by omega)
  have h1 : inInt (r - l) := by unfold inInt INT_MIN INT_MAX at *; omega
  have h2 : inInt (Int.tdiv (r - l) 2) := by
    rw [hd]; unfold inInt INT_MIN INT_MAX at *; omega
  have h3 : inInt (midpoint l r) := by
    unfold midpoint; rw [hd]; unfold inInt INT_MIN INT_MAX at *; omega
  refine ⟨h1, h2, h3, ?_, ?_, ?_, ?_, ?_, ?_, ?_, ?_, ?_, ?_⟩
  · unfold midpoint32
    rw [wrap32_of_inInt _ h1, wrap32_of_inInt _ h2]
    exact wrap32_of_inInt _ h3
  all_goals
    unfold inInt INT_MIN INT_MAX at *
    simp only [midpoint, merge_n1, merge_n2, hd] at *
    omega

theorem midpoint_arithmetic_witness :
    (0 : Int) ≤ 2147483645 ∧ (2147483645 : Int) < 2147483647 ∧ (2147483647 : Int) ≤ INT_MAX ∧
    (inInt (2147483647 - 2147483645) ∧ inInt (Int.tdiv (2147483647 - 2147483645) 2) ∧
      inInt (midpoint 2147483645 2147483647) ∧
      midpoint32 2147483645 2147483647 = midpoint 2147483645 2147483647 ∧
      2147483645 ≤ midpoint 2147483645 2147483647 ∧
      midpoint 2147483645 2147483647 < 2147483647 ∧
      inInt (midpoint 2147483645 2147483647 + 1) ∧
      inInt (midpoint 2147483645 2147483647 - 2147483645) ∧
      inInt (merge_n1 2147483645 (midpoint 2147483645 2147483647)) ∧
      inInt (merge_n2 (midpoint 2147483645 2147483647) 2147483647) ∧
      1 ≤ merge_n1 2147483645 (midpoint 2147483645 2147483647) ∧
      1 ≤ merge_n2 (midpoint 2147483645 2147483647) 2147483647 ∧
      merge_n1 2147483645 (midpoint 2147483645 2147483647) +
        merge_n2 (midpoint 2147483645 2147483647) 2147483647 =
        2147483647 - 2147483645 + 1) :=
  ⟨by decide, by decide, by decide,
    midpoint_arithmetic 2147483645 2147483647 (by decide) (by decide) (by decide)⟩

end UarchStressor
